import Mathlib

/-!
Verification of the background scanning engine of the Folder-Tree-Viewer
application (`src/tree.py`): the folder-size aggregation worker
(`FolderSizeWorker.run`), the filename-substring search worker
(`SearchWorker.run`), the lazy tree-expansion drain
(`MainWindow._process_expand_queue_step`), and the search-match cursor
navigation (`MainWindow.find_next` / `find_prev`).

Modelling conventions:
* A filesystem path is modelled by its list of components (`Path`), so
  `"/r/a"` is `["", "r", "a"]`.  `os.path.dirname` is `List.dropLast`,
  `os.path.join(r, name)` is `r ++ [name]`, and `p.count(os.sep)` is
  `p.length - 1` (`sepCount`).
* A directory tree is the mutual inductive `FSTree`/`FSForest`; a file is a
  name paired with its size in bytes (`os.path.getsize` is modelled as total:
  the per-file `try/except` in the source only matters for unreadable files).
* `os.walk(root)` (top-down) is `osWalk`.
* Python dicts are modelled as functions `Path → Option Nat` updated by
  `updMap` (assignment, last write wins); `dict.get(k, 0)` is `Option.getD`.
* The cooperative cancellation flag `self._running` is modelled by an
  optional cut-off `cancelAt : Option Nat`: the n-th evaluation of
  `self._running` (counted from 0) yields `true` iff `n` is below the
  cut-off.  This captures an external `stop()` call happening at an
  arbitrary point, and is monotone (once false, always false) like the flag.
* Python's `sorted(..., key=..., reverse=True)` is a stable sort; it is
  modelled by `List.insertionSort` with the corresponding total preorder,
  which is also stable, hence produces the same list.
-/

namespace FTV

/-- A filesystem path, as its list of components. -/
abbrev Path := List String

/-- Holds when `a` is a leading piece of `b` (the component-list counterpart of one
string path lying under another). -/
def pfx (a b : Path) : Prop := b.take a.length = a

instance (a b : Path) : Decidable (pfx a b) := by unfold pfx; infer_instance

/-- Python dict assignment `m[k] = v` on a dict modelled as a function. -/
def updMap (m : Path → Option Nat) (k : Path) (v : Nat) : Path → Option Nat :=
  fun x => if x = k then some v else m x

/-- The empty dict. -/
def emptyMap : Path → Option Nat := fun _ => none

/-- The separator count `p.count(os.sep)` for a normalized absolute path: one separator per
component after the first. -/
def sepCount (p : Path) : Nat := p.length - 1

mutual
/-- A directory tree: subdirectories (as a forest, in listing order) and
files (name + size in bytes, in listing order). -/
inductive FSTree where
  | node (dirs : FSForest) (files : List (String × Nat))
/-- A list of named subtrees. -/
inductive FSForest where
  | nil
  | cons (name : String) (t : FSTree) (rest : FSForest)
end

/-- The subdirectory names of a forest, in order. -/
def FSForest.names : FSForest → List String
  | .nil => []
  | .cons n _ rest => n :: rest.names

/-- One `(dirpath, dirnames, filenames)` triple yielded by `os.walk`;
file names carry their `os.path.getsize` result. -/
structure WalkEntry where
  dirpath : Path
  dirnames : List String
  filenames : List (String × Nat)
deriving Repr, DecidableEq

mutual
/-- The walk `os.walk(p)` (top-down, default): the root triple first, then the walks
of the subdirectories in listing order. -/
def osWalk (p : Path) : FSTree → List WalkEntry
  | .node ds fs => ⟨p, ds.names, fs⟩ :: osWalkF p ds
/-- The walk of each subtree of a forest, concatenated in listing order. -/
def osWalkF (p : Path) : FSForest → List WalkEntry
  | .nil => []
  | .cons n t rest => osWalk (p ++ [n]) t ++ osWalkF p rest
end

/-- The directory paths visited by the walk, in discovery order. -/
def walkPaths (root : Path) (t : FSTree) : List Path :=
  (osWalk root t).map WalkEntry.dirpath

/-- Sum of the sizes of the files directly in one directory (the `ownSize`
of a directory, `s` in `FolderSizeWorker.run`). -/
def fileSum (fs : List (String × Nat)) : Nat := (fs.map Prod.snd).sum

mutual
/-- Total number of bytes in all files anywhere under a tree (the
specification-side quantity "sum of the sizes of all files under the root",
defined directly by structural recursion, independent of the worker). -/
def totalTreeSize : FSTree → Nat
  | .node ds fs => fileSum fs + totalForestSize ds
/-- Total bytes in a forest of subtrees. -/
def totalForestSize : FSForest → Nat
  | .nil => 0
  | .cons _ t rest => totalTreeSize t + totalForestSize rest
end

/-! ### The cancellation flag and Python's stable sort -/

/-- The n-th read of the worker's `self._running` flag: `true` iff `n` is
below the (optional) cancellation cut-off. -/
def running (cancelAt : Option Nat) (n : Nat) : Bool :=
  match cancelAt with
  | none => true
  | some k => decide (n < k)

/-- The comparison underlying
`sorted(folders, key=lambda p: p.count(os.sep), reverse=True)`:
`a` sorts no later than `b` iff `a` is at least as deep. -/
def deeper (a b : Path) : Prop := sepCount b ≤ sepCount a

instance : DecidableRel deeper := by
  intro a b; unfold deeper; infer_instance

instance : IsTotal Path deeper :=
  ⟨fun a b => (Nat.le_total (sepCount b) (sepCount a)).imp id id⟩

instance : IsTrans Path deeper :=
  ⟨fun _ _ _ h1 h2 => Nat.le_trans h2 h1⟩

/-- The call `sorted(folders, key=lambda p: p.count(os.sep), reverse=True)`.
Python's `sorted` is stable; a stable sort by a fixed key is determined by
its input, so the stable `List.insertionSort` produces the same list. -/
def pySortDeeper (l : List Path) : List Path := List.insertionSort deeper l

/-! ### `FolderSizeWorker.run` (src/tree.py lines 268-309) -/

/-- Events a `FolderSizeWorker` emits: `folder_done(path, bytes)`,
`progress(i, total, path)`, and the terminal `done`. -/
inductive SizeEvent where
  | folderDone (p : Path) (size : Nat)
  | progress (i : Nat) (total : Nat) (p : Path)
  | done
deriving Repr, DecidableEq

/-- The inner file loop of the walk phase: one `self._running` check per
file, then `s += os.path.getsize(...)`.  Returns `none` when the worker
bails out (`return`, so no `done` is emitted), otherwise the next check
counter and the accumulated size. -/
def sumFilesC (c : Option Nat) : List (String × Nat) → Nat → Nat → Option (Nat × Nat)
  | [], n, s => some (n, s)
  | f :: rest, n, s =>
    if running c n then sumFilesC c rest (n + 1) (s + f.2) else none

/-- The walk phase of `FolderSizeWorker.run`: for each `os.walk` triple, one
`self._running` check (a `return` when cleared), `folders.append(dirpath)`,
the file loop, and `file_sizes_per_folder[dirpath] = s`.  Returns `none` on
a mid-walk `return`, otherwise the check counter, the `folders` list and
the `file_sizes_per_folder` dict. -/
def walkPhase (c : Option Nat) :
    List WalkEntry → Nat → List Path → (Path → Option Nat) →
    Option (Nat × List Path × (Path → Option Nat))
  | [], n, folders, tbl => some (n, folders, tbl)
  | e :: rest, n, folders, tbl =>
    if running c n then
      match sumFilesC c e.filenames (n + 1) 0 with
      | some (n2, s) =>
        walkPhase c rest n2 (folders ++ [e.dirpath]) (updMap tbl e.dirpath s)
      | none => none
    else none

/-- The rollup loop of `FolderSizeWorker.run`: for each directory `d` of
`folders_sorted` (deepest first), one `self._running` check (a `return`
inside `try/finally`, so `done` is still emitted), then
`parent = os.path.dirname(d)`, `if parent in totals: totals[parent] +=
totals.get(d, 0)`, `folder_done.emit(d, totals.get(d, 0))` and
`progress.emit(i + 1, total, d)`. -/
def rollupPhase (c : Option Nat) (total : Nat) :
    List Path → Nat → Nat → (Path → Option Nat) → List SizeEvent →
    (Path → Option Nat) × List SizeEvent
  | [], _, _, totals, evs => (totals, evs)
  | d :: rest, i, n, totals, evs =>
    if running c n then
      let t1 :=
        match totals d.dropLast with
        | some v => updMap totals d.dropLast (v + (totals d).getD 0)
        | none => totals
      rollupPhase c total rest (i + 1) (n + 1) t1
        (evs ++ [SizeEvent.folderDone d ((t1 d).getD 0),
                 SizeEvent.progress (i + 1) total d])
    else (totals, evs)

namespace FolderSizeWorker

/-- The worker body `FolderSizeWorker.run`, as the list of emitted events: the walk phase
(no events; cancellation there `return`s before the `try/finally`), then
`folders_sorted = sorted(folders, key=depth, reverse=True)`,
`totals = dict(file_sizes_per_folder)`, the rollup loop, and the
`finally: self.done.emit()`. -/
def run (root : Path) (t : FSTree) (c : Option Nat) : List SizeEvent :=
  match walkPhase c (osWalk root t) 0 [] emptyMap with
  | none => []
  | some (n, folders, tbl) =>
    let total := folders.length
    let foldersSorted := pySortDeeper folders
    let totals := tbl
    (rollupPhase c total foldersSorted 0 n totals []).2 ++ [SizeEvent.done]

end FolderSizeWorker

/-- The consumer table `self.folder_sizes`: `MainWindow.on_folder_size_done`
stores each `folder_done(path, bytes)` event (src/tree.py lines 1087-1093);
other events do not touch the table. -/
def sizeTable (evs : List SizeEvent) : Path → Option Nat :=
  evs.foldl
    (fun m e =>
      match e with
      | SizeEvent.folderDone p s => updMap m p s
      | _ => m)
    emptyMap

/-! ### The rollup loop as a fold

`rollupPhase` with the flag never cleared is a left fold of one step per
directory; the step is exactly the loop body of `FolderSizeWorker.run`
(src/tree.py lines 296-307) minus the events that do not carry sizes. -/

/-- State of the rollup loop: the `totals` dict and the `folder_done`
events emitted so far (as `(path, bytes)` pairs). -/
structure RollSt where
  totals : Path → Option Nat
  events : List (Path × Nat)

/-- One iteration of the rollup loop, uncancelled: add this directory's
total into its parent's bucket if the parent is in the dict, then emit
`(d, totals.get(d, 0))`. -/
def rollStep (st : RollSt) (d : Path) : RollSt :=
  let t1 :=
    match st.totals d.dropLast with
    | some v => updMap st.totals d.dropLast (v + (st.totals d).getD 0)
    | none => st.totals
  ⟨t1, st.events ++ [(d, (t1 d).getD 0)]⟩

/-- The `(path, bytes)` pairs of the `folder_done` events in an event list,
in order. -/
def folderDoneEvents : List SizeEvent → List (Path × Nat)
  | [] => []
  | SizeEvent.folderDone p s :: rest => (p, s) :: folderDoneEvents rest
  | _ :: rest => folderDoneEvents rest

/-- The paths of the `folder_done` events, in emission order. -/
def folderDonePaths (evs : List SizeEvent) : List Path :=
  (folderDoneEvents evs).map Prod.fst

/-- The `folder_done` events applied to a dict in order (last write wins). -/
def pairTableFrom (m : Path → Option Nat) (prs : List (Path × Nat)) :
    Path → Option Nat :=
  prs.foldl (fun m pr => updMap m pr.1 pr.2) m

/-- The number of `self._running` checks the walk phase performs on a list
of walk entries: one per directory plus one per file. -/
def walkChecks (entries : List WalkEntry) : Nat :=
  (entries.map (fun e => 1 + e.filenames.length)).sum

/-- The dict `file_sizes_per_folder` built from a list of walk entries, starting
from a given dict. -/
def buildOwnFrom (tbl : Path → Option Nat) (entries : List WalkEntry) :
    Path → Option Nat :=
  entries.foldl (fun m e => updMap m e.dirpath (fileSum e.filenames)) tbl

/-- The `file_sizes_per_folder` dict of a full, uncancelled walk. -/
def ownSizes (root : Path) (t : FSTree) : Path → Option Nat :=
  buildOwnFrom emptyMap (osWalk root t)

/-! ### The intended value of the rollup

`cum W ow d` is the specification-side cumulative size of directory `d`:
the sum of the own-sizes of every visited directory lying under `d`
(including `d` itself).  The fold invariant below shows the rollup loop
emits exactly this value for every directory. -/

/-- Boolean form of `pfx`. -/
def pfxB (a b : Path) : Bool := decide (pfx a b)

/-- Boolean test for `c` being an immediate child path of `d`. -/
def childB (d c : Path) : Bool := decide (c.dropLast = d)

/-- The cumulative size of `d` over the visited set `W` with own-sizes
`ow`: the sum of `ow` over all visited paths under `d`. -/
def cum (W : List Path) (ow : Path → Nat) (d : Path) : Nat :=
  ((W.filter (fun p => pfxB d p)).map ow).sum

/-- Sum of the cumulative sizes of the already-processed immediate children
of `w` (the contributions `totals[parent] += totals.get(d, 0)` received so
far). -/
def childSum (W : List Path) (ow : Path → Nat) (P : List Path) (w : Path) : Nat :=
  ((P.filter (fun c => childB w c)).map (cum W ow)).sum

/-- The `totals` dict after the processed prefix `P` of the sorted folder
list: defined on exactly the visited paths; each holds its own size plus
the finalized totals of its already-processed children. -/
def totF (W : List Path) (ow : Path → Nat) (P : List Path) : Path → Option Nat :=
  fun w => if w ∈ W then some (ow w + childSum W ow P w) else none

/-- The concrete scenario tree: root `/r` contains `/r/a/f1` (100 bytes)
and `/r/a/b/f2` (50 bytes). -/
def demoTree : FSTree :=
  FSTree.node
    (FSForest.cons "a"
      (FSTree.node
        (FSForest.cons "b" (FSTree.node FSForest.nil [("f2", 50)]) FSForest.nil)
        [("f1", 100)])
      FSForest.nil)
    []

/-! ### `SearchWorker` (src/tree.py lines 175-209) -/

/-- Python's `name.lower()`: per-character lowercasing, as a char list. -/
def pyLower (s : String) : List Char := s.data.map Char.toLower

/-- Python's `text.strip()`: whitespace stripping, as a char list (used by
`find_next`/`find_prev` to test for an empty needle: `if not needle`). -/
def pyStrip (s : String) : List Char :=
  ((s.data.dropWhile Char.isWhitespace).reverse.dropWhile Char.isWhitespace).reverse

/-- Python's substring containment `n in h` on strings: `n` occurs as a
contiguous block of `h`. -/
def substrB (n h : List Char) : Bool :=
  (List.range (h.length + 1)).any (fun i => decide ((h.drop i).take n.length = n))

/-- Events a `SearchWorker` emits: `progress(count, dirpath)`, one `found`
per match, and the terminal `done(results)`. -/
inductive SearchEvent where
  | progress (count : Nat) (dir : Path)
  | found (p : Path)
  | done (results : List Path)
deriving Repr, DecidableEq

namespace SearchWorker

/-- The loop state of `SearchWorker.run`: the check counter of the
cancellation flag, the visited-entry counter `count`, the accumulated
`self.results`, and the events emitted so far. -/
structure SState where
  checks : Nat
  count : Nat
  results : List Path
  events : List SearchEvent
deriving Repr

/-- The inner loop `for name in dirs + files`: one `self._running` check
per name (a `break` when cleared), `count += 1`, the case-insensitive
substring test `self.needle in name.lower()` appending to `results` and
emitting `found`, and a `progress` emission every 500 entries. -/
def goNames (c : Option Nat) (needleL : List Char) (r : Path) :
    List String → SState → SState
  | [], st => st
  | nm :: restN, st =>
    if running c st.checks then
      let cnt := st.count + 1
      let matched := substrB needleL (pyLower nm)
      let res := if matched then st.results ++ [r ++ [nm]] else st.results
      let evs1 := if matched then st.events ++ [SearchEvent.found (r ++ [nm])]
                  else st.events
      let evs2 := if cnt % 500 == 0 then evs1 ++ [SearchEvent.progress cnt r]
                  else evs1
      goNames c needleL r restN ⟨st.checks + 1, cnt, res, evs2⟩
    else st

/-- The outer loop `for r, dirs, files in os.walk(...)`: one
`self._running` check per directory (a `break` when cleared; after an inner
`break` the next outer check observes the cleared flag and breaks too,
since the flag is monotone), then the inner name loop. -/
def goEntries (c : Option Nat) (needleL : List Char) :
    List WalkEntry → SState → SState
  | [], st => st
  | e :: rest, st =>
    if running c st.checks then
      goEntries c needleL rest
        (goNames c needleL e.dirpath (e.dirnames ++ e.filenames.map Prod.fst)
          ⟨st.checks + 1, st.count, st.results, st.events⟩)
    else st

/-- The final loop state of `SearchWorker.run` (the needle is lowered once
in `__init__`: `self.needle = needle.lower()`). -/
def finalState (root : Path) (t : FSTree) (needle : String) (c : Option Nat) :
    SState :=
  goEntries c (pyLower needle) (osWalk root t) ⟨0, 0, [], []⟩

/-- The worker body `SearchWorker.run`, as the list of emitted events: the walk loops, then
always `self.done.emit(self.results)`. -/
def run (root : Path) (t : FSTree) (needle : String) (c : Option Nat) :
    List SearchEvent :=
  (finalState root t needle c).events ++
    [SearchEvent.done (finalState root t needle c).results]

/-- The `self.results` list carried by the terminal `done` signal. -/
def runResults (root : Path) (t : FSTree) (needle : String) (c : Option Nat) :
    List Path :=
  (finalState root t needle c).results

end SearchWorker

/-- The paths of the `found` events of a search event list, in order. -/
def foundPaths : List SearchEvent → List Path
  | [] => []
  | SearchEvent.found p :: rest => p :: foundPaths rest
  | _ :: rest => foundPaths rest

/-! ### Search-match cursor navigation
(`MainWindow.find_next` / `find_prev`, src/tree.py lines 836-897) -/

/-- What one press of Find-down / Find-up does. -/
inductive NavAction where
  | nop
  | warnNoRoot
  | navigate (newPos : Int)
  | startSearch
deriving Repr, DecidableEq

namespace MainWindow

/-- The update `self.match_pos = (self.match_pos + 1) % len(self.matches)`
(src/tree.py line 843); Python's `%` on ints is `Int.emod`. -/
def findNextPos (pos : Int) (n : Nat) : Int := (pos + 1) % (n : Int)

/-- The update `self.match_pos = (self.match_pos - 1) % len(self.matches)`
(src/tree.py line 893). -/
def findPrevPos (pos : Int) (n : Nat) : Int := (pos - 1) % (n : Int)

/-- The handler `MainWindow.find_next` as a decision: empty/whitespace needle returns
immediately; with existing matches it navigates the cursor forward; with
no matches it warns when the root is invalid, otherwise it stops any old
search and starts a new threaded `SearchWorker`. -/
def findNextStep (needle : String) (ms : List Path) (matchPos : Int)
    (rootValid : Bool) : NavAction :=
  if pyStrip needle = [] then NavAction.nop
  else if ms ≠ [] then NavAction.navigate (findNextPos matchPos ms.length)
  else if rootValid = false then NavAction.warnNoRoot
  else NavAction.startSearch

/-- The handler `MainWindow.find_prev` as a decision plus the updated
`(matches, match_pos)` state: empty needle returns; with no matches it
first re-collects matches synchronously (`find_all_indexes`, passed in as
`findAllResult`) and resets the cursor to 0; if there are still none it
returns; otherwise it navigates the cursor backward. -/
def findPrevStep (needle : String) (ms : List Path) (matchPos : Int)
    (findAllResult : List Path) : NavAction × List Path × Int :=
  if pyStrip needle = [] then (NavAction.nop, ms, matchPos)
  else
    let m2 := if ms = [] then findAllResult else ms
    let p2 := if ms = [] then 0 else matchPos
    if m2 = [] then (NavAction.nop, m2, p2)
    else (NavAction.navigate (findPrevPos p2 m2.length), m2, findPrevPos p2 m2.length)

end MainWindow

/-! ### The expansion drain
(`MainWindow._process_expand_queue_step`, src/tree.py lines 978-1035) -/

/-- Python dict assignment on the `_expand_attempts` counter table.  The
table is a `defaultdict(int)`, so reads default to 0 and
`del self._expand_attempts[folder]` behaves like resetting to 0. -/
def updN (m : Path → Nat) (k : Path) (v : Nat) : Path → Nat :=
  fun x => if x = k then v else m x

/-- State at the end of one drain tick's inner `while` loop: the remaining
queue, the attempts table, the items collected for re-enqueueing, the
materialization clock (one step per processed item), the nodes expanded so
far, and the trace of processed (popped) items. -/
structure TickSt where
  queue : List Path
  attempts : Path → Nat
  requeue : List Path
  gstep : Nat
  expanded : List Path
  popped : List Path

/-- The inner loop `while self._expand_queue and processed < MAX_PER_TICK`
of `_process_expand_queue_step`, with the state threaded as arguments: pop
a folder; if its model index is valid (the oracle `valid`, indexed by the
processing clock), expand it and clear its retry counter; otherwise
increment the counter, re-enqueueing only while it stays ≤ 8. -/
def procItems (valid : Nat → Path → Bool) :
    Nat → List Path → (Path → Nat) → List Path → Nat → List Path → List Path → TickSt
  | 0, q, att, rq, g, ex, pp => ⟨q, att, rq, g, ex, pp⟩
  | _ + 1, [], att, rq, g, ex, pp => ⟨[], att, rq, g, ex, pp⟩
  | lim + 1, folder :: rest, att, rq, g, ex, pp =>
    if valid g folder then
      procItems valid lim rest (updN att folder 0) rq (g + 1)
        (ex ++ [folder]) (pp ++ [folder])
    else
      if att folder + 1 ≤ 8 then
        procItems valid lim rest (updN att folder (att folder + 1))
          (rq ++ [folder]) (g + 1) ex (pp ++ [folder])
      else
        procItems valid lim rest (updN att folder (att folder + 1))
          rq (g + 1) ex (pp ++ [folder])

/-- The state owned by the drain across ticks. -/
structure ExpSt where
  queue : List Path
  attempts : Path → Nat
  expanding : Bool
  threadRunning : Bool
  gstep : Nat
  expanded : List Path
  popped : List Path

/-- The outcome of one `_process_expand_queue_step` call. -/
inductive TickAction where
  | stopped
  | reschedule
  | finalize
deriving Repr, DecidableEq

namespace MainWindow

/-- One `_process_expand_queue_step` call: return immediately when not
expanding; otherwise process up to `MAX_PER_TICK = 40` items, append the
re-enqueued items at the tail, then either re-schedule itself (queue
non-empty or producer thread still running) or finalize
(`_finalize_expansion`, which clears `_expanding`). -/
def processExpandQueueStep (valid : Nat → Path → Bool) (st : ExpSt) :
    ExpSt × TickAction :=
  if st.expanding = false then (st, TickAction.stopped)
  else
    let r := procItems valid 40 st.queue st.attempts [] st.gstep st.expanded st.popped
    let q2 := r.queue ++ r.requeue
    if q2 ≠ [] ∨ st.threadRunning = true then
      (⟨q2, r.attempts, st.expanding, st.threadRunning, r.gstep, r.expanded, r.popped⟩,
       TickAction.reschedule)
    else
      (⟨q2, r.attempts, false, st.threadRunning, r.gstep, r.expanded, r.popped⟩,
       TickAction.finalize)

/-- The timer-driven loop: keep re-scheduling ticks until one stops or
finalizes (`fuel` bounds the number of ticks we run). -/
def driveExpansion (valid : Nat → Path → Bool) : Nat → ExpSt → Option ExpSt
  | 0, _ => none
  | Nat.succ fuel, st =>
    match processExpandQueueStep valid st with
    | (st2, TickAction.reschedule) => driveExpansion valid fuel st2
    | (st2, TickAction.stopped) => some st2
    | (st2, TickAction.finalize) => some st2

end MainWindow

/-- The per-path invariant of the drain for a path `p` whose index is
never valid: while `p` is still queued (in the queue or the tick's requeue
list, exactly once), its attempt counter equals the number of times it has
been popped so far, at most 8; once dropped, it was popped exactly 9 times
(1 initial + 8 retries) and holds counter 9. -/
def NVInv (qcount att pops : Nat) : Prop :=
  (qcount = 1 ∧ att = pops ∧ pops ≤ 8) ∨ (qcount = 0 ∧ att = 9 ∧ pops = 9)

/-- The per-path invariant of the drain for a path `p` whose index is
always valid: either `p` is still queued once and never popped, or it has
been popped exactly once, expanded, and its retry counter cleared. -/
def AVInv (qcount pops att : Nat) (isexp : Prop) : Prop :=
  (qcount = 1 ∧ pops = 0) ∨ (qcount = 0 ∧ pops = 1 ∧ att = 0 ∧ isexp)

/-! ### Elementary facts about `pfx` -/

theorem pfx_refl (a : Path) : pfx a a := by simp [pfx]

theorem pfx_length_le {a b : Path} (h : pfx a b) : a.length ≤ b.length := by
  have := congrArg List.length h
  rw [List.length_take] at this
  omega

theorem pfx_trans {a b c : Path} (h1 : pfx a b) (h2 : pfx b c) : pfx a c := by
  unfold pfx at h1 h2 ⊢
  have hab : a.length ≤ b.length := pfx_length_le h1
  calc c.take a.length = (c.take b.length).take a.length := by
        rw [List.take_take]; congr 1; omega
    _ = b.take a.length := by rw [h2]
    _ = a := h1

theorem pfx_eq_of_length_eq {a b : Path} (h : pfx a b) (hl : a.length = b.length) :
    a = b := by
  unfold pfx at h
  rw [← h, hl, List.take_length]

theorem pfx_ne_nil {r p : Path} (h : pfx r p) (hr : r ≠ []) : p ≠ [] := by
  intro hp
  subst hp
  simp [pfx] at h
  exact hr h

theorem pfx_dropLast (p : Path) : pfx p.dropLast p := by
  unfold pfx
  rw [List.dropLast_eq_take, List.length_take]
  congr 1
  omega

theorem pfx_of_take {p : Path} (k : Nat) : pfx (p.take k) p := by
  unfold pfx
  rw [List.length_take]
  rcases le_total k p.length with h | h
  · congr 1
    omega
  · rw [Nat.min_eq_right h, List.take_length, List.take_of_length_le h]

theorem dropLast_take_succ {p : Path} {k : Nat} (h : k < p.length) :
    (p.take (k + 1)).dropLast = p.take k := by
  rw [List.dropLast_eq_take, List.length_take, List.take_take]
  congr 1
  omega

/-! ### Walk lemmas -/

theorem osWalk_head (p : Path) (t : FSTree) :
    ∃ e rest, osWalk p t = e :: rest ∧ e.dirpath = p := by
  cases t with
  | node ds fs => exact ⟨⟨p, ds.names, fs⟩, osWalkF p ds, by rw [osWalk], rfl⟩

theorem root_mem_walkPaths (p : Path) (t : FSTree) : p ∈ walkPaths p t := by
  obtain ⟨e, rest, hw, he⟩ := osWalk_head p t
  unfold walkPaths
  rw [hw]
  simp [he]

mutual
theorem osWalk_pfx (p : Path) (t : FSTree) :
    ∀ e ∈ osWalk p t, pfx p e.dirpath := by
  cases t with
  | node ds fs =>
    intro e he
    rw [osWalk] at he
    rcases List.mem_cons.mp he with h | h
    · subst h; exact pfx_refl p
    · exact (osWalkF_pfx p ds e h).1
theorem osWalkF_pfx (p : Path) (f : FSForest) :
    ∀ e ∈ osWalkF p f, pfx p e.dirpath ∧ p.length < e.dirpath.length := by
  cases f with
  | nil => intro e he; simp [osWalkF] at he
  | cons n t rest =>
    intro e he
    rw [osWalkF] at he
    rcases List.mem_append.mp he with h | h
    · have h1 := osWalk_pfx (p ++ [n]) t e h
      unfold pfx at h1 ⊢
      rw [List.length_append, List.length_singleton] at h1
      have hlen : p.length + 1 ≤ e.dirpath.length := by
        have := congrArg List.length h1
        rw [List.length_take, List.length_append, List.length_singleton] at this
        omega
      constructor
      · have h2 : e.dirpath.take p.length = (e.dirpath.take (p.length + 1)).take p.length := by
          rw [List.take_take]
          congr 1
          omega
        rw [h2, h1]
        simp
      · omega
    · exact osWalkF_pfx p rest e h
end

theorem walkPaths_pfx (root : Path) (t : FSTree) :
    ∀ q ∈ walkPaths root t, pfx root q := by
  intro q hq
  unfold walkPaths at hq
  obtain ⟨e, he, hq'⟩ := List.mem_map.mp hq
  subst hq'
  exact osWalk_pfx root t e he

mutual
theorem osWalk_closed (p : Path) (t : FSTree) :
    ∀ e ∈ osWalk p t, e.dirpath = p ∨
      e.dirpath.dropLast ∈ (osWalk p t).map WalkEntry.dirpath := by
  cases t with
  | node ds fs =>
    intro e he
    rw [osWalk] at he
    rcases List.mem_cons.mp he with h | h
    · subst h; exact Or.inl rfl
    · rcases osWalkF_closed p ds e h with h1 | h1
      · right
        rw [osWalk]
        rw [h1]
        simp
      · right
        rw [osWalk]
        simp only [List.map_cons, List.mem_cons]
        exact Or.inr h1
theorem osWalkF_closed (p : Path) (f : FSForest) :
    ∀ e ∈ osWalkF p f, e.dirpath.dropLast = p ∨
      e.dirpath.dropLast ∈ (osWalkF p f).map WalkEntry.dirpath := by
  cases f with
  | nil => intro e he; simp [osWalkF] at he
  | cons n t rest =>
    intro e he
    rw [osWalkF] at he
    rcases List.mem_append.mp he with h | h
    · rcases osWalk_closed (p ++ [n]) t e h with h1 | h1
      · left
        rw [h1, List.dropLast_concat]
      · right
        rw [osWalkF, List.map_append, List.mem_append]
        exact Or.inl h1
    · rcases osWalkF_closed p rest e h with h1 | h1
      · exact Or.inl h1
      · right
        rw [osWalkF, List.map_append, List.mem_append]
        exact Or.inr h1
end

theorem walkPaths_closed (root : Path) (t : FSTree) :
    ∀ q ∈ walkPaths root t, q ≠ root → q.dropLast ∈ walkPaths root t := by
  intro q hq hne
  unfold walkPaths at hq ⊢
  obtain ⟨e, he, hq'⟩ := List.mem_map.mp hq
  subst hq'
  rcases osWalk_closed root t e he with h | h
  · exact absurd h hne
  · exact h

mutual
theorem osWalk_fileSum (p : Path) (t : FSTree) :
    ((osWalk p t).map (fun e => fileSum e.filenames)).sum = totalTreeSize t := by
  cases t with
  | node ds fs =>
    rw [osWalk, totalTreeSize]
    simp only [List.map_cons, List.sum_cons]
    rw [osWalkF_fileSum p ds]
theorem osWalkF_fileSum (p : Path) (f : FSForest) :
    ((osWalkF p f).map (fun e => fileSum e.filenames)).sum = totalForestSize f := by
  cases f with
  | nil => rw [osWalkF, totalForestSize]; simp
  | cons n t rest =>
    rw [osWalkF, totalForestSize]
    rw [List.map_append, List.sum_append]
    rw [osWalk_fileSum (p ++ [n]) t, osWalkF_fileSum p rest]
end

theorem folderDoneEvents_append (a b : List SizeEvent) :
    folderDoneEvents (a ++ b) = folderDoneEvents a ++ folderDoneEvents b := by
  induction a with
  | nil => simp [folderDoneEvents]
  | cons e rest ih =>
    cases e <;> simp [folderDoneEvents, ih]

theorem sizeTable_eq_pairTable (evs : List SizeEvent) :
    sizeTable evs = pairTableFrom emptyMap (folderDoneEvents evs) := by
  unfold sizeTable pairTableFrom
  generalize emptyMap = m
  induction evs generalizing m with
  | nil => simp [folderDoneEvents]
  | cons e rest ih =>
    cases e <;> simp [folderDoneEvents, List.foldl_cons, ih]

theorem pairTableFrom_map (S : List Path) (g : Path → Nat) :
    ∀ (m : Path → Option Nat) (w : Path),
      pairTableFrom m (S.map fun d => (d, g d)) w =
        if w ∈ S then some (g w) else m w := by
  induction S with
  | nil => intro m w; simp [pairTableFrom]
  | cons a rest ih =>
    intro m w
    rw [List.map_cons]
    unfold pairTableFrom at ih ⊢
    rw [List.foldl_cons, ih]
    by_cases hw : w ∈ rest
    · simp [hw]
    · by_cases hwa : w = a
      · subst hwa
        simp [hw, updMap]
      · simp [hw, hwa, updMap]

theorem foldl_rollStep_events (S : List Path) :
    ∀ (t : Path → Option Nat) (E : List (Path × Nat)),
      S.foldl rollStep ⟨t, E⟩ =
        ⟨(S.foldl rollStep ⟨t, []⟩).totals, E ++ (S.foldl rollStep ⟨t, []⟩).events⟩ := by
  induction S with
  | nil => intro t E; simp
  | cons d rest ih =>
    intro t E
    rw [List.foldl_cons, List.foldl_cons]
    show rest.foldl rollStep (rollStep ⟨t, E⟩ d) = _
    have hstep : rollStep ⟨t, E⟩ d =
        ⟨(rollStep ⟨t, []⟩ d).totals, E ++ (rollStep ⟨t, []⟩ d).events⟩ := by
      simp [rollStep]
    rw [hstep]
    obtain ⟨t1, E1⟩ := rollStep ⟨t, []⟩ d
    rw [ih t1 (E ++ E1), ih t1 E1]
    simp

theorem rollupPhase_none_events (total : Nat) (S : List Path) :
    ∀ (i n : Nat) (totals : Path → Option Nat) (evs : List SizeEvent),
      folderDoneEvents ((rollupPhase none total S i n totals evs).2) =
        folderDoneEvents evs ++ (S.foldl rollStep ⟨totals, []⟩).events := by
  induction S with
  | nil => intro i n totals evs; simp [rollupPhase]
  | cons d rest ih =>
    intro i n totals evs
    rw [rollupPhase]
    simp only [running, if_pos]
    rw [ih, List.foldl_cons]
    rw [foldl_rollStep_events _ _ ((rollStep ⟨totals, []⟩ d).events)]
    rw [folderDoneEvents_append]
    simp [rollStep, folderDoneEvents]

theorem rollupPhase_cancel_take (c : Option Nat) (total : Nat) (S : List Path) :
    ∀ (i n : Nat) (totals : Path → Option Nat) (evs : List SizeEvent),
      ∃ m, m ≤ S.length ∧
        rollupPhase c total S i n totals evs =
          rollupPhase none total (S.take m) i n totals evs := by
  induction S with
  | nil => intro i n totals evs; exact ⟨0, Nat.le_refl 0, by simp [rollupPhase]⟩
  | cons d rest ih =>
    intro i n totals evs
    by_cases hr : running c n
    · obtain ⟨m, hm, heq⟩ := ih (i + 1) (n + 1) _ _
      refine ⟨m + 1, by simp [Nat.succ_le_succ hm], ?_⟩
      rw [rollupPhase, if_pos hr, List.take_succ_cons, rollupPhase]
      simp only [running, if_pos]
      exact heq
    · refine ⟨0, Nat.zero_le _, ?_⟩
      rw [rollupPhase, if_neg hr]
      simp [rollupPhase]

theorem sumFilesC_none (fs : List (String × Nat)) :
    ∀ n s, sumFilesC none fs n s = some (n + fs.length, s + fileSum fs) := by
  induction fs with
  | nil => intro n s; simp [sumFilesC, fileSum]
  | cons f rest ih =>
    intro n s
    rw [sumFilesC]
    simp only [running, if_pos]
    rw [ih]
    simp [fileSum]
    constructor
    · omega
    · rw [Nat.add_assoc]

theorem walkPhase_none (entries : List WalkEntry) :
    ∀ (n : Nat) (folders : List Path) (tbl : Path → Option Nat),
      walkPhase none entries n folders tbl =
        some (n + walkChecks entries,
              folders ++ entries.map WalkEntry.dirpath,
              buildOwnFrom tbl entries) := by
  induction entries with
  | nil => intro n folders tbl; simp [walkPhase, walkChecks, buildOwnFrom]
  | cons e rest ih =>
    intro n folders tbl
    rw [walkPhase]
    simp only [running, if_pos]
    rw [sumFilesC_none]
    show walkPhase none rest (n + 1 + e.filenames.length) (folders ++ [e.dirpath])
        (updMap tbl e.dirpath (0 + fileSum e.filenames)) = _
    rw [ih]
    simp [walkChecks, buildOwnFrom, Nat.zero_add]
    omega

theorem take_mem_of_closed (W : List Path) (r : Path)
    (hroot : ∀ p ∈ W, pfx r p)
    (hclosed : ∀ p ∈ W, p ≠ r → p.dropLast ∈ W) :
    ∀ p ∈ W, ∀ k, r.length ≤ k → k ≤ p.length → p.take k ∈ W := by
  intro p hp
  have key : ∀ j k, k + j = p.length → r.length ≤ k → p.take k ∈ W := by
    intro j
    induction j with
    | zero =>
      intro k hk _
      have hkl : k = p.length := by omega
      rw [hkl, List.take_length]
      exact hp
    | succ j ih =>
      intro k hk hkr
      have hq : p.take (k + 1) ∈ W := ih (k + 1) (by omega) (by omega)
      have hqr : p.take (k + 1) ≠ r := by
        intro he
        have hlen := congrArg List.length he
        rw [List.length_take] at hlen
        have hrp : r.length ≤ p.length := pfx_length_le (hroot p hp)
        omega
      have hdrop := hclosed _ hq hqr
      rw [dropLast_take_succ (by omega)] at hdrop
      exact hdrop
  intro k hk1 hk2
  exact key (p.length - k) k (by omega) hk1

theorem cum_toFinset (W : List Path) (hnd : W.Nodup) (ow : Path → Nat) (x : Path) :
    cum W ow x = Finset.sum ((W.filter (fun p => pfxB x p)).toFinset) ow :=
  (List.sum_toFinset ow (hnd.filter _)).symm

/-- The partition identity behind the rollup: the cumulative size of a
visited directory is its own size plus the cumulative sizes of its visited
immediate children.  Uses that the visited set is closed under parents
(`os.walk` visits every ancestor of a visited directory). -/
theorem cum_partition (W : List Path) (ow : Path → Nat) (r : Path)
    (hnd : W.Nodup) (hrne : r ≠ [])
    (hroot : ∀ p ∈ W, pfx r p)
    (hclosed : ∀ p ∈ W, p ≠ r → p.dropLast ∈ W)
    (d : Path) (hd : d ∈ W) :
    cum W ow d = ow d + ((W.filter (fun c => childB d c)).map (cum W ow)).sum := by
  have hdne : d ≠ [] := pfx_ne_nil (hroot d hd) hrne
  -- the cone of `d` and the set of visited children of `d`
  set A := (W.filter (fun p => pfxB d p)).toFinset with hA
  set C := (W.filter (fun c => childB d c)).toFinset with hC
  have memA : ∀ p, p ∈ A ↔ p ∈ W ∧ pfx d p := by
    intro p
    rw [hA, List.mem_toFinset, List.mem_filter]
    simp [pfxB]
  have memC : ∀ c, c ∈ C ↔ c ∈ W ∧ c.dropLast = d := by
    intro c
    rw [hC, List.mem_toFinset, List.mem_filter]
    simp [childB]
  have memCone : ∀ c p, p ∈ (W.filter (fun q => pfxB c q)).toFinset ↔ p ∈ W ∧ pfx c p := by
    intro c p
    rw [List.mem_toFinset, List.mem_filter]
    simp [pfxB]
  have hchildlen : ∀ c, c ∈ C → c.length = d.length + 1 := by
    intro c hc
    obtain ⟨hcW, hcd⟩ := (memC c).mp hc
    have hcne : c ≠ [] := by
      intro he
      rw [he] at hcd
      exact hdne (by simpa using hcd.symm)
    have := congrArg List.length hcd
    rw [List.length_dropLast] at this
    have : c.length - 1 = d.length := this
    have hpos : 0 < c.length := List.length_pos.mpr hcne
    omega
  -- the cone of `d` is `d` together with the cones of its visited children
  have hsplit : A = insert d (C.biUnion (fun c => (W.filter (fun q => pfxB c q)).toFinset)) := by
    ext p
    rw [memA, Finset.mem_insert, Finset.mem_biUnion]
    constructor
    · rintro ⟨hpW, hdp⟩
      by_cases hpd : p = d
      · exact Or.inl hpd
      · right
        have hlt : d.length < p.length := by
          have hle := pfx_length_le hdp
          rcases Nat.lt_or_ge d.length p.length with h | h
          · exact h
          · exact absurd (pfx_eq_of_length_eq hdp (by omega)).symm hpd
        refine ⟨p.take (d.length + 1), ?_, ?_⟩
        · rw [memC]
          constructor
          · refine take_mem_of_closed W r hroot hclosed p hpW (d.length + 1) ?_ (by omega)
            have := pfx_length_le (hroot d hd)
            omega
          · rw [dropLast_take_succ hlt]
            exact hdp
        · rw [memCone]
          exact ⟨hpW, pfx_of_take (d.length + 1)⟩
    · rintro (hpd | ⟨c, hc, hp⟩)
      · rw [hpd]
        exact ⟨hd, pfx_refl d⟩
      · obtain ⟨hpW, hcp⟩ := (memCone c p).mp hp
        obtain ⟨_, hcd⟩ := (memC c).mp hc
        refine ⟨hpW, pfx_trans ?_ hcp⟩
        rw [← hcd]
        exact pfx_dropLast c
  have hdnotin : d ∉ C.biUnion (fun c => (W.filter (fun q => pfxB c q)).toFinset) := by
    rw [Finset.mem_biUnion]
    rintro ⟨c, hc, hp⟩
    have hlen := hchildlen c hc
    have := pfx_length_le ((memCone c d).mp hp).2
    omega
  have hdisj : Set.PairwiseDisjoint (↑C : Set Path)
      (fun c => (W.filter (fun q => pfxB c q)).toFinset) := by
    intro c1 hc1 c2 hc2 hne
    rw [Finset.mem_coe] at hc1 hc2
    rw [Function.onFun]
    rw [Finset.disjoint_left]
    intro p hp1 hp2
    have h1 := ((memCone c1 p).mp hp1).2
    have h2 := ((memCone c2 p).mp hp2).2
    have hl1 := hchildlen c1 hc1
    have hl2 := hchildlen c2 hc2
    apply hne
    unfold pfx at h1 h2
    rw [← h1, ← h2, hl1, hl2]
  rw [cum_toFinset W hnd ow d]
  rw [← hA, hsplit, Finset.sum_insert hdnotin, Finset.sum_biUnion hdisj]
  congr 1
  have hinner : ∀ c ∈ C, Finset.sum ((W.filter (fun q => pfxB c q)).toFinset) ow = cum W ow c := by
    intro c _
    exact (cum_toFinset W hnd ow c).symm
  rw [Finset.sum_congr rfl hinner]
  exact List.sum_toFinset (cum W ow) (hnd.filter _)

theorem length_of_dropLast_eq {c d : Path} (h : c.dropLast = d) (hd : d ≠ []) :
    c.length = d.length + 1 := by
  have hcne : c ≠ [] := by
    intro he
    rw [he] at h
    exact hd (by simpa using h.symm)
  have := congrArg List.length h
  rw [List.length_dropLast] at this
  have hpos : 0 < c.length := List.length_pos.mpr hcne
  omega

/-- When the rollup loop reaches `d`, every visited immediate child of `d`
has already been processed: children are strictly deeper, and the list is
sorted deepest-first. -/
theorem children_filter_perm
    (W S : List Path) (r : Path)
    (hperm : S.Perm W) (hsort : S.Pairwise deeper) (hnd : W.Nodup)
    (hroot : ∀ p ∈ W, pfx r p) (hrne : r ≠ [])
    (P R' : List Path) (d : Path) (hS : S = P ++ d :: R') :
    (W.filter (fun c => childB d c)).Perm (P.filter (fun c => childB d c)) := by
  have hSnd : S.Nodup := (List.Perm.nodup_iff hperm).mpr hnd
  have hPnd : P.Nodup := by
    refine List.Sublist.nodup ?_ hSnd
    rw [hS]
    exact List.sublist_append_left P (d :: R')
  apply (List.perm_ext_iff_of_nodup (hnd.filter _) (hPnd.filter _)).mpr
  intro c
  rw [List.mem_filter, List.mem_filter]
  constructor
  · rintro ⟨hcW, hcb⟩
    refine ⟨?_, hcb⟩
    have hcd : c.dropLast = d := by simpa [childB] using hcb
    have hcS : c ∈ S := hperm.mem_iff.mpr hcW
    rw [hS] at hcS
    rcases List.mem_append.mp hcS with h | h
    · exact h
    · exfalso
      have hdW : d ∈ W := by
        apply hperm.mem_iff.mp
        rw [hS]
        exact List.mem_append_right _ (List.mem_cons_self d R')
      have hdne : d ≠ [] := pfx_ne_nil (hroot d hdW) hrne
      have hclen : c.length = d.length + 1 := length_of_dropLast_eq hcd hdne
      have hdpos : 0 < d.length := List.length_pos.mpr hdne
      rcases List.mem_cons.mp h with h1 | h1
      · rw [h1] at hclen
        omega
      · have hpair : List.Pairwise deeper (d :: R') := by
          refine List.Pairwise.sublist ?_ hsort
          rw [hS]
          exact List.sublist_append_right P (d :: R')
        have hrel : deeper d c := (List.pairwise_cons.mp hpair).1 c h1
        unfold deeper sepCount at hrel
        omega
  · rintro ⟨hcP, hcb⟩
    refine ⟨?_, hcb⟩
    apply hperm.mem_iff.mp
    rw [hS]
    exact List.mem_append_left _ hcP

theorem rollStep_eq_some (t : Path → Option Nat) (E : List (Path × Nat)) (d : Path)
    (v : Nat) (h : t d.dropLast = some v) :
    rollStep ⟨t, E⟩ d =
      ⟨updMap t d.dropLast (v + (t d).getD 0),
       E ++ [(d, ((updMap t d.dropLast (v + (t d).getD 0)) d).getD 0)]⟩ := by
  unfold rollStep
  simp only [h]

theorem rollStep_eq_none (t : Path → Option Nat) (E : List (Path × Nat)) (d : Path)
    (h : t d.dropLast = none) :
    rollStep ⟨t, E⟩ d = ⟨t, E ++ [(d, (t d).getD 0)]⟩ := by
  unfold rollStep
  simp only [h]

/-- One step of the rollup loop, taken at the head of the unprocessed
suffix, moves `totF` one directory forward and emits exactly the
cumulative size of that directory. -/
theorem rollStep_totF
    (W S : List Path) (ow : Path → Nat) (r : Path)
    (hperm : S.Perm W) (hsort : S.Pairwise deeper) (hnd : W.Nodup)
    (hroot : ∀ p ∈ W, pfx r p) (hrne : r ≠ [])
    (hclosed : ∀ p ∈ W, p ≠ r → p.dropLast ∈ W)
    (P R' : List Path) (d : Path) (hS : S = P ++ d :: R') (E : List (Path × Nat)) :
    rollStep ⟨totF W ow P, E⟩ d = ⟨totF W ow (P ++ [d]), E ++ [(d, cum W ow d)]⟩ := by
  have hdS : d ∈ S := by
    rw [hS]
    exact List.mem_append_right _ (List.mem_cons_self d R')
  have hdW : d ∈ W := hperm.mem_iff.mp hdS
  have hdne : d ≠ [] := pfx_ne_nil (hroot d hdW) hrne
  have hdq : ¬ (d = d.dropLast) := by
    intro he
    have := congrArg List.length he
    rw [List.length_dropLast] at this
    have hpos : 0 < d.length := List.length_pos.mpr hdne
    omega
  have hval : totF W ow P d = some (cum W ow d) := by
    unfold totF
    rw [if_pos hdW]
    congr 1
    have hperm2 := children_filter_perm W S r hperm hsort hnd hroot hrne P R' d hS
    have hsum : childSum W ow P d = ((W.filter (fun c => childB d c)).map (cum W ow)).sum := by
      unfold childSum
      exact (List.Perm.sum_eq (List.Perm.map _ hperm2)).symm
    rw [hsum]
    exact (cum_partition W ow r hnd hrne hroot hclosed d hdW).symm
  by_cases hq : d.dropLast ∈ W
  · have htq : totF W ow P d.dropLast = some (ow d.dropLast + childSum W ow P d.dropLast) := by
      unfold totF
      rw [if_pos hq]
    rw [rollStep_eq_some _ E d _ htq]
    have hgetd : (totF W ow P d).getD 0 = cum W ow d := by rw [hval]; rfl
    have hemit : ((updMap (totF W ow P) d.dropLast
        (ow d.dropLast + childSum W ow P d.dropLast + (totF W ow P d).getD 0)) d).getD 0 =
        cum W ow d := by
      unfold updMap
      rw [if_neg hdq, hval]
      rfl
    rw [hemit, hgetd]
    have ht1 : updMap (totF W ow P) d.dropLast
        (ow d.dropLast + childSum W ow P d.dropLast + cum W ow d) =
        totF W ow (P ++ [d]) := by
      funext w
      unfold updMap
      by_cases hw : w = d.dropLast
      · rw [if_pos hw, hw]
        unfold totF
        rw [if_pos hq]
        congr 1
        have hcs : childSum W ow (P ++ [d]) d.dropLast =
            childSum W ow P d.dropLast + cum W ow d := by
          unfold childSum
          rw [List.filter_append]
          have hfd : List.filter (fun c => childB d.dropLast c) [d] = [d] := by
            simp [childB]
          rw [hfd, List.map_append, List.sum_append]
          simp
        rw [hcs]
        omega
      · rw [if_neg hw]
        unfold totF
        by_cases hwW : w ∈ W
        · rw [if_pos hwW, if_pos hwW]
          have hcs : childSum W ow (P ++ [d]) w = childSum W ow P w := by
            unfold childSum
            rw [List.filter_append]
            have hfd : List.filter (fun c => childB w c) [d] = [] := by
              simp [childB]
              intro he
              exact hw he.symm
            rw [hfd, List.append_nil]
          rw [hcs]
        · rw [if_neg hwW, if_neg hwW]
    rw [ht1]
  · have htq : totF W ow P d.dropLast = none := by
      unfold totF
      rw [if_neg hq]
    rw [rollStep_eq_none _ E d htq]
    have hgetd : (totF W ow P d).getD 0 = cum W ow d := by rw [hval]; rfl
    rw [hgetd]
    have ht1 : totF W ow P = totF W ow (P ++ [d]) := by
      funext w
      unfold totF
      by_cases hwW : w ∈ W
      · rw [if_pos hwW, if_pos hwW]
        have hcs : childSum W ow (P ++ [d]) w = childSum W ow P w := by
          unfold childSum
          rw [List.filter_append]
          have hfd : List.filter (fun c => childB w c) [d] = [] := by
            simp [childB]
            intro he
            rw [← he] at hwW
            exact hq hwW
          rw [hfd, List.append_nil]
        rw [hcs]
      · rw [if_neg hwW, if_neg hwW]
    rw [ht1]

/-- The fold invariant of the rollup loop: processing the remaining suffix
from the `totF` state of the processed prefix emits one event per
remaining directory, carrying its cumulative size. -/
theorem foldl_rollStep_inv
    (W S : List Path) (ow : Path → Nat) (r : Path)
    (hperm : S.Perm W) (hsort : S.Pairwise deeper) (hnd : W.Nodup)
    (hroot : ∀ p ∈ W, pfx r p) (hrne : r ≠ [])
    (hclosed : ∀ p ∈ W, p ≠ r → p.dropLast ∈ W) :
    ∀ (R P : List Path) (E : List (Path × Nat)), S = P ++ R →
      R.foldl rollStep ⟨totF W ow P, E⟩ =
        ⟨totF W ow S, E ++ R.map (fun d => (d, cum W ow d))⟩ := by
  intro R
  induction R with
  | nil =>
    intro P E hSP
    rw [List.append_nil] at hSP
    rw [hSP]
    simp
  | cons d R' ih =>
    intro P E hSP
    rw [List.foldl_cons,
      rollStep_totF W S ow r hperm hsort hnd hroot hrne hclosed P R' d hSP E]
    rw [ih (P ++ [d]) (E ++ [(d, cum W ow d)]) (by rw [hSP]; simp)]
    simp

/-! ### Assembling the full uncancelled run -/

theorem buildOwnFrom_not_mem (entries : List WalkEntry) :
    ∀ (tbl : Path → Option Nat) (p : Path),
      p ∉ entries.map WalkEntry.dirpath → buildOwnFrom tbl entries p = tbl p := by
  induction entries with
  | nil => intro tbl p _; rfl
  | cons e rest ih =>
    intro tbl p hp
    rw [List.map_cons, List.mem_cons] at hp
    push_neg at hp
    unfold buildOwnFrom at ih ⊢
    rw [List.foldl_cons, ih _ p hp.2]
    unfold updMap
    rw [if_neg hp.1]

theorem buildOwnFrom_isSome (entries : List WalkEntry) :
    ∀ (tbl : Path → Option Nat) (p : Path),
      p ∈ entries.map WalkEntry.dirpath → (buildOwnFrom tbl entries p).isSome = true := by
  induction entries with
  | nil => intro tbl p hp; simp at hp
  | cons e rest ih =>
    intro tbl p hp
    unfold buildOwnFrom at ih ⊢
    rw [List.foldl_cons]
    by_cases hpr : p ∈ rest.map WalkEntry.dirpath
    · exact ih _ p hpr
    · have hpe : p = e.dirpath := by
        rw [List.map_cons, List.mem_cons] at hp
        tauto
      rw [show (List.foldl (fun m e => updMap m e.dirpath (fileSum e.filenames))
          (updMap tbl e.dirpath (fileSum e.filenames)) rest) =
          buildOwnFrom (updMap tbl e.dirpath (fileSum e.filenames)) rest from rfl]
      rw [buildOwnFrom_not_mem rest _ p hpr]
      unfold updMap
      rw [if_pos hpe]
      rfl

theorem buildOwnFrom_nodup_val (entries : List WalkEntry) :
    ∀ (tbl : Path → Option Nat), (entries.map WalkEntry.dirpath).Nodup →
      ∀ e ∈ entries, buildOwnFrom tbl entries e.dirpath = some (fileSum e.filenames) := by
  induction entries with
  | nil => intro tbl _ e he; simp at he
  | cons a rest ih =>
    intro tbl hnd e he
    rw [List.map_cons, List.nodup_cons] at hnd
    unfold buildOwnFrom at ih ⊢
    rw [List.foldl_cons]
    rcases List.mem_cons.mp he with h | h
    · rw [h]
      rw [show (List.foldl (fun m e => updMap m e.dirpath (fileSum e.filenames))
          (updMap tbl a.dirpath (fileSum a.filenames)) rest) =
          buildOwnFrom (updMap tbl a.dirpath (fileSum a.filenames)) rest from rfl]
      rw [buildOwnFrom_not_mem rest _ a.dirpath hnd.1]
      unfold updMap
      rw [if_pos rfl]
    · exact ih _ hnd.2 e h

theorem ownSizes_isSome_iff (root : Path) (t : FSTree) (p : Path) :
    (ownSizes root t p).isSome = true ↔ p ∈ walkPaths root t := by
  constructor
  · intro h
    by_contra hp
    rw [show ownSizes root t p = buildOwnFrom emptyMap (osWalk root t) p from rfl,
      buildOwnFrom_not_mem _ _ p hp] at h
    simp [emptyMap] at h
  · intro h
    exact buildOwnFrom_isSome _ emptyMap p h

theorem totF_nil_eq_ownSizes (root : Path) (t : FSTree) :
    totF (walkPaths root t) (fun p => ((ownSizes root t) p).getD 0) [] =
      ownSizes root t := by
  funext w
  unfold totF
  by_cases hw : w ∈ walkPaths root t
  · rw [if_pos hw]
    have hs := (ownSizes_isSome_iff root t w).mpr hw
    obtain ⟨x, hx⟩ := Option.isSome_iff_exists.mp hs
    rw [hx]
    have hcs : childSum (walkPaths root t) (fun p => ((ownSizes root t) p).getD 0) [] w = 0 := by
      simp [childSum]
    rw [hcs]
    simp [hx]
  · rw [if_neg hw]
    rw [show ownSizes root t w = buildOwnFrom emptyMap (osWalk root t) w from rfl,
      buildOwnFrom_not_mem _ _ w hw]
    rfl

/-- The `folder_done` events of a full, uncancelled `FolderSizeWorker.run`:
one per visited directory, in deepest-first order, carrying the cumulative
size of that directory. -/
theorem run_none_folderDoneEvents (root : Path) (t : FSTree)
    (hnd : (walkPaths root t).Nodup) (hrne : root ≠ []) :
    folderDoneEvents (FolderSizeWorker.run root t none) =
      (pySortDeeper (walkPaths root t)).map
        (fun d => (d, cum (walkPaths root t)
          (fun p => ((ownSizes root t) p).getD 0) d)) := by
  unfold FolderSizeWorker.run
  rw [walkPhase_none]
  show folderDoneEvents
      ((rollupPhase none ([] ++ (osWalk root t).map WalkEntry.dirpath).length
        (pySortDeeper ([] ++ (osWalk root t).map WalkEntry.dirpath)) 0
        (0 + walkChecks (osWalk root t)) (buildOwnFrom emptyMap (osWalk root t)) []).2
        ++ [SizeEvent.done]) = _
  rw [folderDoneEvents_append]
  rw [show folderDoneEvents [SizeEvent.done] = [] from rfl, List.append_nil]
  rw [rollupPhase_none_events]
  rw [show folderDoneEvents [] = [] from rfl, List.nil_append]
  rw [List.nil_append]
  set W := walkPaths root t with hW
  set ow := fun p => ((ownSizes root t) p).getD 0 with how
  have htbl : buildOwnFrom emptyMap (osWalk root t) = totF W ow [] := by
    rw [totF_nil_eq_ownSizes]
    rfl
  rw [show ((osWalk root t).map WalkEntry.dirpath) = W from rfl]
  rw [htbl]
  have hfold := foldl_rollStep_inv W (pySortDeeper W) ow root
    (List.perm_insertionSort deeper W)
    (List.sorted_insertionSort deeper W)
    hnd (walkPaths_pfx root t) hrne (walkPaths_closed root t)
    (pySortDeeper W) [] [] (by simp)
  rw [hfold]
  rfl

theorem foldl_rollStep_paths (S : List Path) :
    ∀ (tbl : Path → Option Nat),
      ((S.foldl rollStep ⟨tbl, []⟩).events).map Prod.fst = S := by
  induction S with
  | nil => intro tbl; simp
  | cons d rest ih =>
    intro tbl
    rw [List.foldl_cons]
    have hstep : ∃ t1 v, rollStep ⟨tbl, []⟩ d = ⟨t1, [(d, v)]⟩ := by
      unfold rollStep
      exact ⟨_, _, rfl⟩
    obtain ⟨t1, v, hstep⟩ := hstep
    rw [hstep, foldl_rollStep_events]
    simp [ih t1]

theorem sumFilesC_some (c : Option Nat) (fs : List (String × Nat)) :
    ∀ n s n' s', sumFilesC c fs n s = some (n', s') → s' = s + fileSum fs := by
  induction fs with
  | nil =>
    intro n s n' s' h
    rw [sumFilesC] at h
    simp at h
    simp [fileSum, h.2]
  | cons f rest ih =>
    intro n s n' s' h
    rw [sumFilesC] at h
    by_cases hr : running c n
    · rw [if_pos hr] at h
      have := ih (n + 1) (s + f.2) n' s' h
      rw [this]
      simp [fileSum]
      omega
    · rw [if_neg hr] at h
      exact absurd h (by simp)

theorem walkPhase_some (c : Option Nat) (entries : List WalkEntry) :
    ∀ (n : Nat) (F : List Path) (T : Path → Option Nat) n' F' T',
      walkPhase c entries n F T = some (n', F', T') →
      F' = F ++ entries.map WalkEntry.dirpath ∧ T' = buildOwnFrom T entries := by
  induction entries with
  | nil =>
    intro n F T n' F' T' h
    rw [walkPhase] at h
    simp at h
    rw [← h.2.1, ← h.2.2]
    exact ⟨by simp, rfl⟩
  | cons e rest ih =>
    intro n F T n' F' T' h
    rw [walkPhase] at h
    by_cases hr : running c n
    · rw [if_pos hr] at h
      cases hs : sumFilesC c e.filenames (n + 1) 0 with
      | none => rw [hs] at h; exact absurd h (by simp)
      | some v =>
        obtain ⟨n2, s⟩ := v
        rw [hs] at h
        have hval := sumFilesC_some c e.filenames (n + 1) 0 n2 s hs
        rw [Nat.zero_add] at hval
        have := ih n2 (F ++ [e.dirpath]) (updMap T e.dirpath s) n' F' T' h
        refine ⟨by rw [this.1]; simp, ?_⟩
        rw [this.2, hval]
        rfl
    · rw [if_neg hr] at h
      exact absurd h (by simp)

/-- The `folder_done` paths of any run (cancelled anywhere or not) form an
initial segment of the deepest-first sorted folder list. -/
theorem run_donePaths_take (root : Path) (t : FSTree) (c : Option Nat) :
    ∃ m, folderDonePaths (FolderSizeWorker.run root t c) =
      (pySortDeeper (walkPaths root t)).take m := by
  unfold FolderSizeWorker.run
  cases hw : walkPhase c (osWalk root t) 0 [] emptyMap with
  | none =>
    exact ⟨0, by simp [folderDonePaths, folderDoneEvents]⟩
  | some v =>
    obtain ⟨n, folders, tbl⟩ := v
    obtain ⟨hF, _⟩ := walkPhase_some c (osWalk root t) 0 [] emptyMap n folders tbl hw
    rw [List.nil_append] at hF
    obtain ⟨m, _, heq⟩ :=
      rollupPhase_cancel_take c folders.length (pySortDeeper folders) 0 n tbl []
    refine ⟨m, ?_⟩
    show folderDonePaths ((rollupPhase c folders.length (pySortDeeper folders) 0 n tbl []).2
      ++ [SizeEvent.done]) = _
    unfold folderDonePaths
    rw [folderDoneEvents_append]
    rw [show folderDoneEvents [SizeEvent.done] = [] from rfl, List.append_nil]
    rw [heq, rollupPhase_none_events]
    rw [show folderDoneEvents [] = [] from rfl, List.nil_append]
    rw [foldl_rollStep_paths]
    rw [hF]
    rfl

theorem rollupPhase_done_count (c : Option Nat) (total : Nat) (S : List Path) :
    ∀ (i n : Nat) (totals : Path → Option Nat) (evs : List SizeEvent),
      List.count SizeEvent.done ((rollupPhase c total S i n totals evs).2) =
        List.count SizeEvent.done evs := by
  induction S with
  | nil => intro i n totals evs; rw [rollupPhase]
  | cons d rest ih =>
    intro i n totals evs
    rw [rollupPhase]
    by_cases hr : running c n
    · rw [if_pos hr]
      show List.count _ ((rollupPhase c total rest (i + 1) (n + 1) _ _).2) = _
      rw [ih]
      rw [List.count_append]
      rfl
    · rw [if_neg hr]

theorem cumRoot_total (root : Path) (t : FSTree)
    (hnd : (walkPaths root t).Nodup) :
    cum (walkPaths root t) (fun p => ((ownSizes root t) p).getD 0) root =
      totalTreeSize t := by
  unfold cum
  have hfil : (walkPaths root t).filter (fun p => pfxB root p) = walkPaths root t :=
    List.filter_eq_self.mpr
      (fun p hp => by simpa [pfxB] using walkPaths_pfx root t p hp)
  rw [hfil]
  rw [show walkPaths root t = (osWalk root t).map WalkEntry.dirpath from rfl]
  rw [List.map_map]
  have hpt : ∀ e ∈ osWalk root t,
      ((fun p => ((ownSizes root t) p).getD 0) ∘ WalkEntry.dirpath) e =
        fileSum e.filenames := by
    intro e he
    show ((ownSizes root t) e.dirpath).getD 0 = fileSum e.filenames
    rw [show ownSizes root t e.dirpath = buildOwnFrom emptyMap (osWalk root t) e.dirpath from rfl]
    rw [buildOwnFrom_nodup_val (osWalk root t) emptyMap hnd e he]
    rfl
  rw [List.map_congr_left hpt]
  exact osWalk_fileSum root t

/-- The full consumer table of an uncancelled run, pointwise: defined
exactly on the visited directories, holding their cumulative sizes. -/
theorem sizeTable_run_none (root : Path) (t : FSTree)
    (hnd : (walkPaths root t).Nodup) (hrne : root ≠ []) (w : Path) :
    sizeTable (FolderSizeWorker.run root t none) w =
      if w ∈ pySortDeeper (walkPaths root t)
      then some (cum (walkPaths root t)
        (fun p => ((ownSizes root t) p).getD 0) w)
      else none := by
  rw [sizeTable_eq_pairTable, run_none_folderDoneEvents root t hnd hrne]
  rw [pairTableFrom_map]
  rfl

/-- C1: after a complete (uncancelled) run of `FolderSizeWorker.run`, the
consumer table maps the root to the sum of the sizes of all files under the
root; in particular on `/r` with `/r/a/f1` (100B) and `/r/a/b/f2` (50B) the
table maps `/r/a/b` to 50, `/r/a` to 150 and `/r` to 150.  (The two
well-formedness hypotheses hold for every real directory tree: the root
path is nonempty and distinct sibling directories have distinct paths.) -/
theorem c1_rootCumulative_is_total_size :
    (∀ (root : Path) (t : FSTree), (walkPaths root t).Nodup → root ≠ [] →
      sizeTable (FolderSizeWorker.run root t none) root = some (totalTreeSize t)) ∧
    sizeTable (FolderSizeWorker.run ["", "r"] demoTree none) ["", "r", "a", "b"] = some 50 ∧
    sizeTable (FolderSizeWorker.run ["", "r"] demoTree none) ["", "r", "a"] = some 150 ∧
    sizeTable (FolderSizeWorker.run ["", "r"] demoTree none) ["", "r"] = some 150 := by
  refine ⟨?_, by decide, by decide, by decide⟩
  intro root t hnd hrne
  rw [sizeTable_run_none root t hnd hrne root]
  have hrS : root ∈ pySortDeeper (walkPaths root t) := by
    unfold pySortDeeper
    rw [List.mem_insertionSort]
    exact root_mem_walkPaths root t
  rw [if_pos hrS, cumRoot_total root t hnd]

/-- Witness for C1: the general statement applied to the scenario tree. -/
theorem c1_witness :
    sizeTable (FolderSizeWorker.run ["", "r"] demoTree none) ["", "r"] =
      some (totalTreeSize demoTree) :=
  c1_rootCumulative_is_total_size.1 ["", "r"] demoTree (by decide) (by decide)

/-- C2 (counterexample): cancellation observed during the walk phase makes
`FolderSizeWorker.run` return before the `try/finally` that emits `done`
(src/tree.py lines 272-289): with the flag cleared before the first check,
the run emits no events at all, so `done` does not fire exactly once. -/
theorem c2_counterexample :
    FolderSizeWorker.run ["", "r"] demoTree (some 0) = [] ∧
    List.count SizeEvent.done (FolderSizeWorker.run ["", "r"] demoTree (some 0)) ≠ 1 := by
  constructor
  · decide
  · decide

/-- C2 (amended): `done` fires exactly once iff the walk phase completes
(in particular on every uncancelled run, and on every run cancelled only
during the rollup, whose `return` sits inside `try/finally`); a run that
observes cancellation during the walk phase returns without emitting
anything — no events and no `done`. -/
theorem c2_done_iff_walk_completes :
    ∀ (root : Path) (t : FSTree) (c : Option Nat),
      List.count SizeEvent.done (FolderSizeWorker.run root t c) =
        (if (walkPhase c (osWalk root t) 0 [] emptyMap).isSome then 1 else 0) ∧
      ((walkPhase c (osWalk root t) 0 [] emptyMap).isSome = false →
        FolderSizeWorker.run root t c = []) ∧
      List.count SizeEvent.done (FolderSizeWorker.run root t none) = 1 := by
  have key : ∀ (root : Path) (t : FSTree) (c : Option Nat),
      List.count SizeEvent.done (FolderSizeWorker.run root t c) =
        (if (walkPhase c (osWalk root t) 0 [] emptyMap).isSome then 1 else 0) ∧
      ((walkPhase c (osWalk root t) 0 [] emptyMap).isSome = false →
        FolderSizeWorker.run root t c = []) := by
    intro root t c
    unfold FolderSizeWorker.run
    cases hw : walkPhase c (osWalk root t) 0 [] emptyMap with
    | none => exact ⟨by simp, fun _ => rfl⟩
    | some v =>
      obtain ⟨n, folders, tbl⟩ := v
      refine ⟨?_, by simp⟩
      show List.count SizeEvent.done
        ((rollupPhase c folders.length (pySortDeeper folders) 0 n tbl []).2
          ++ [SizeEvent.done]) = _
      rw [List.count_append, rollupPhase_done_count]
      simp
  intro root t c
  refine ⟨(key root t c).1, (key root t c).2, ?_⟩
  rw [(key root t none).1, walkPhase_none]
  simp

/-- Witness for C2: the amended statement applied to a run cancelled
before the first walk check. -/
theorem c2_witness :
    List.count SizeEvent.done (FolderSizeWorker.run ["", "r"] demoTree (some 0)) =
      (if (walkPhase (some 0) (osWalk ["", "r"] demoTree) 0 [] emptyMap).isSome
       then 1 else 0) ∧
    FolderSizeWorker.run ["", "r"] demoTree (some 0) = [] :=
  ⟨(c2_done_iff_walk_completes ["", "r"] demoTree (some 0)).1,
   (c2_done_iff_walk_completes ["", "r"] demoTree (some 0)).2.1 (by decide)⟩

/-- In a deepest-first-sorted list of paths lying under a nonempty root,
any occurrence of a path's parent comes strictly after every occurrence of
the path itself. -/
theorem sorted_child_before_parent (W L : List Path) (root : Path)
    (hrne : root ≠ [])
    (hpair : L.Pairwise deeper)
    (hmem : ∀ q ∈ L, q ∈ W)
    (hroot : ∀ q ∈ W, pfx root q) :
    ∀ (i j : Fin L.length), L.get j = (L.get i).dropLast → i.1 < j.1 := by
  intro i j hji
  have hiW : L.get i ∈ W := hmem _ (List.get_mem L i.1 i.2)
  have hjW : L.get j ∈ W := hmem _ (List.get_mem L j.1 j.2)
  have hine : L.get i ≠ [] := pfx_ne_nil (hroot _ hiW) hrne
  have hjne : L.get j ≠ [] := pfx_ne_nil (hroot _ hjW) hrne
  have hilen : (L.get i).length = (L.get j).length + 1 :=
    length_of_dropLast_eq hji.symm hjne
  have hjpos : 0 < (L.get j).length := List.length_pos.mpr hjne
  by_contra hij
  push_neg at hij
  rcases Nat.lt_or_ge j.1 i.1 with hlt | hge
  · have hrel : deeper (L.get j) (L.get i) :=
      List.pairwise_iff_get.mp hpair j i (Fin.mk_lt_mk.mpr hlt)
    unfold deeper sepCount at hrel
    omega
  · have hij2 : i.1 = j.1 := by omega
    have heq : L.get i = L.get j := by
      congr 1
      exact Fin.ext hij2
    rw [← heq] at hji
    have hlen := congrArg List.length hji
    rw [List.length_dropLast] at hlen
    omega

/-- C3: in every run of the size rollup (cancelled anywhere or not), the
`folder_done` finalization events are emitted in non-increasing path-depth
order, and any event for a directory's parent comes strictly after every
event for the directory itself — a child is finalized strictly before its
parent is processed. -/
theorem c3_rollup_depth_order :
    ∀ (root : Path) (t : FSTree) (c : Option Nat), root ≠ [] →
      (folderDonePaths (FolderSizeWorker.run root t c)).Pairwise deeper ∧
      (∀ (i j : Fin (folderDonePaths (FolderSizeWorker.run root t c)).length),
        (folderDonePaths (FolderSizeWorker.run root t c)).get j =
          ((folderDonePaths (FolderSizeWorker.run root t c)).get i).dropLast →
        i.1 < j.1) := by
  intro root t c hrne
  obtain ⟨m, hm⟩ := run_donePaths_take root t c
  have hsorted : (folderDonePaths (FolderSizeWorker.run root t c)).Pairwise deeper := by
    rw [hm]
    exact List.Pairwise.sublist (List.take_sublist m _)
      (List.sorted_insertionSort deeper (walkPaths root t))
  refine ⟨hsorted, ?_⟩
  apply sorted_child_before_parent (walkPaths root t) _ root hrne hsorted
  · intro q hq
    rw [hm] at hq
    have hq2 : q ∈ pySortDeeper (walkPaths root t) :=
      List.Sublist.mem hq (List.take_sublist m _)
    unfold pySortDeeper at hq2
    rw [List.mem_insertionSort] at hq2
    exact hq2
  · exact walkPaths_pfx root t

/-- Witness for C3: the depth ordering on the scenario run. -/
theorem c3_witness :
    (folderDonePaths (FolderSizeWorker.run ["", "r"] demoTree none)).Pairwise deeper :=
  (c3_rollup_depth_order ["", "r"] demoTree none (by decide)).1

/-- C7: after an uncancelled size run, the table is monotone along parent
chains: whenever a directory and its parent are both in the table, the
directory's cumulative size is at most its parent's. -/
theorem c7_table_monotone :
    ∀ (root : Path) (t : FSTree), (walkPaths root t).Nodup → root ≠ [] →
      ∀ (d : Path) (vd vp : Nat),
        sizeTable (FolderSizeWorker.run root t none) d = some vd →
        sizeTable (FolderSizeWorker.run root t none) d.dropLast = some vp →
        vd ≤ vp := by
  intro root t hnd hrne d vd vp hd hp
  rw [sizeTable_run_none root t hnd hrne] at hd hp
  by_cases hdS : d ∈ pySortDeeper (walkPaths root t)
  · by_cases hpS : d.dropLast ∈ pySortDeeper (walkPaths root t)
    · rw [if_pos hdS] at hd
      rw [if_pos hpS] at hp
      have hvd : vd = cum (walkPaths root t)
          (fun p => ((ownSizes root t) p).getD 0) d := by
        exact (Option.some.injEq _ _ ▸ hd).symm
      have hvp : vp = cum (walkPaths root t)
          (fun p => ((ownSizes root t) p).getD 0) d.dropLast := by
        exact (Option.some.injEq _ _ ▸ hp).symm
      rw [hvd, hvp]
      unfold cum
      apply List.Sublist.sum_le_sum ?_ (fun a _ => Nat.zero_le a)
      apply List.Sublist.map
      apply List.monotone_filter_right
      intro p hpf
      have h1 : pfx d p := by simpa [pfxB] using hpf
      have h2 : pfx d.dropLast d := pfx_dropLast d
      simpa [pfxB] using pfx_trans h2 h1
    · rw [if_neg hpS] at hp
      exact absurd hp (by simp)
  · rw [if_neg hdS] at hd
    exact absurd hd (by simp)

/-- Witness for C7: on the scenario tree, `/r/a/b`'s 50 bytes is at most
its parent `/r/a`'s 150 bytes. -/
theorem c7_witness : (50 : Nat) ≤ 150 :=
  c7_table_monotone ["", "r"] demoTree (by decide) (by decide)
    ["", "r", "a", "b"] 50 150 (by decide) (by decide)

theorem substrB_iff (n h : List Char) :
    substrB n h = true ↔ ∃ pre post, h = pre ++ n ++ post := by
  unfold substrB
  rw [List.any_eq_true]
  constructor
  · rintro ⟨i, _, hi⟩
    rw [decide_eq_true_eq] at hi
    refine ⟨h.take i, (h.drop i).drop n.length, ?_⟩
    have hsplit : h.drop i = n ++ (h.drop i).drop n.length := by
      conv_lhs => rw [← List.take_append_drop n.length (h.drop i)]
      rw [hi]
    calc h = h.take i ++ h.drop i := (List.take_append_drop i h).symm
      _ = h.take i ++ (n ++ (h.drop i).drop n.length) := by rw [← hsplit]
      _ = h.take i ++ n ++ (h.drop i).drop n.length := by rw [List.append_assoc]
  · rintro ⟨pre, post, hpp⟩
    refine ⟨pre.length, ?_, ?_⟩
    · rw [List.mem_range]
      have := congrArg List.length hpp
      simp at this
      omega
    · rw [decide_eq_true_eq, hpp, List.append_assoc, List.drop_left, List.take_left]

theorem substrB_nil (h : List Char) : substrB [] h = true := by
  unfold substrB
  rw [List.any_eq_true]
  exact ⟨0, by simp, by simp⟩

theorem foundPaths_append (a b : List SearchEvent) :
    foundPaths (a ++ b) = foundPaths a ++ foundPaths b := by
  induction a with
  | nil => simp [foundPaths]
  | cons e rest ih => cases e <;> simp [foundPaths, ih]

theorem goNames_found_inv (c : Option Nat) (needleL : List Char) (r : Path) :
    ∀ (names : List String) (st : SearchWorker.SState),
      foundPaths st.events = st.results →
      foundPaths (SearchWorker.goNames c needleL r names st).events =
        (SearchWorker.goNames c needleL r names st).results := by
  intro names
  induction names with
  | nil => intro st h; exact h
  | cons nm restN ih =>
    intro st h
    rw [SearchWorker.goNames]
    by_cases hr : running c st.checks
    · rw [if_pos hr]
      apply ih
      show foundPaths (if (st.count + 1) % 500 == 0 then _ ++ [SearchEvent.progress _ _] else _) = _
      by_cases hp : (st.count + 1) % 500 == 0
      · rw [if_pos hp, foundPaths_append]
        show _ ++ [] = _
        rw [List.append_nil]
        by_cases hm : substrB needleL (pyLower nm)
        · rw [if_pos hm, if_pos hm, foundPaths_append, h]
          rfl
        · rw [if_neg hm, if_neg hm]
          exact h
      · rw [if_neg hp]
        by_cases hm : substrB needleL (pyLower nm)
        · rw [if_pos hm, if_pos hm, foundPaths_append, h]
          rfl
        · rw [if_neg hm, if_neg hm]
          exact h
    · rw [if_neg hr]
      exact h

theorem goEntries_found_inv (c : Option Nat) (needleL : List Char) :
    ∀ (entries : List WalkEntry) (st : SearchWorker.SState),
      foundPaths st.events = st.results →
      foundPaths (SearchWorker.goEntries c needleL entries st).events =
        (SearchWorker.goEntries c needleL entries st).results := by
  intro entries
  induction entries with
  | nil => intro st h; exact h
  | cons e rest ih =>
    intro st h
    rw [SearchWorker.goEntries]
    by_cases hr : running c st.checks
    · rw [if_pos hr]
      exact ih _ (goNames_found_inv c needleL e.dirpath _ _ h)
    · rw [if_neg hr]
      exact h

theorem goNames_no_done (c : Option Nat) (needleL : List Char) (r : Path) :
    ∀ (names : List String) (st : SearchWorker.SState) (L : List Path),
      SearchEvent.done L ∉ st.events →
      SearchEvent.done L ∉ (SearchWorker.goNames c needleL r names st).events := by
  intro names
  induction names with
  | nil => intro st L h; exact h
  | cons nm restN ih =>
    intro st L h
    rw [SearchWorker.goNames]
    by_cases hr : running c st.checks
    · rw [if_pos hr]
      apply ih
      show SearchEvent.done L ∉
        (if (st.count + 1) % 500 == 0 then _ ++ [SearchEvent.progress _ _] else _)
      have h1 : SearchEvent.done L ∉
          (if substrB needleL (pyLower nm)
           then st.events ++ [SearchEvent.found (r ++ [nm])] else st.events) := by
        by_cases hm : substrB needleL (pyLower nm)
        · rw [if_pos hm]
          intro hmem
          rcases List.mem_append.mp hmem with h2 | h2
          · exact h h2
          · simp at h2
        · rw [if_neg hm]
          exact h
      by_cases hp : (st.count + 1) % 500 == 0
      · rw [if_pos hp]
        intro hmem
        rcases List.mem_append.mp hmem with h2 | h2
        · exact h1 h2
        · simp at h2
      · rw [if_neg hp]
        exact h1
    · rw [if_neg hr]
      exact h

theorem goEntries_no_done (c : Option Nat) (needleL : List Char) :
    ∀ (entries : List WalkEntry) (st : SearchWorker.SState) (L : List Path),
      SearchEvent.done L ∉ st.events →
      SearchEvent.done L ∉ (SearchWorker.goEntries c needleL entries st).events := by
  intro entries
  induction entries with
  | nil => intro st L h; exact h
  | cons e rest ih =>
    intro st L h
    rw [SearchWorker.goEntries]
    by_cases hr : running c st.checks
    · rw [if_pos hr]
      exact ih _ L (goNames_no_done c needleL e.dirpath _ _ L h)
    · rw [if_neg hr]
      exact h

/-- C10: on every run of `SearchWorker` — cancelled at any point or not —
the list carried by the terminal `done` signal is exactly the sequence of
paths previously emitted as `found` events, in the same order, and `done`
appears only as the terminal event. -/
theorem c10_done_carries_found_stream :
    ∀ (root : Path) (t : FSTree) (needle : String) (c : Option Nat),
      ∃ E, SearchWorker.run root t needle c = E ++ [SearchEvent.done (foundPaths E)] ∧
        (∀ L, SearchEvent.done L ∉ E) := by
  intro root t needle c
  refine ⟨(SearchWorker.finalState root t needle c).events, ?_, ?_⟩
  · unfold SearchWorker.run
    have h := goEntries_found_inv c (pyLower needle) (osWalk root t) ⟨0, 0, [], []⟩ rfl
    rw [show SearchWorker.finalState root t needle c =
        SearchWorker.goEntries c (pyLower needle) (osWalk root t) ⟨0, 0, [], []⟩ from rfl]
    rw [← h]
  · intro L
    exact goEntries_no_done c (pyLower needle) (osWalk root t) ⟨0, 0, [], []⟩ L
      (by simp)

theorem goNames_none_results (needleL : List Char) (r : Path) :
    ∀ (names : List String) (st : SearchWorker.SState),
      (SearchWorker.goNames none needleL r names st).results =
        st.results ++
          (names.filter (fun nm => substrB needleL (pyLower nm))).map
            (fun nm => r ++ [nm]) := by
  intro names
  induction names with
  | nil => intro st; simp [SearchWorker.goNames]
  | cons nm restN ih =>
    intro st
    rw [SearchWorker.goNames]
    simp only [running, if_pos]
    rw [ih]
    by_cases hm : substrB needleL (pyLower nm)
    · have hf : (nm :: restN).filter (fun s => substrB needleL (pyLower s)) =
          nm :: restN.filter (fun s => substrB needleL (pyLower s)) := by
        simp [List.filter_cons, hm]
      rw [if_pos hm, hf, List.map_cons]
      show st.results ++ [r ++ [nm]] ++ _ = _
      rw [List.append_assoc]
      rfl
    · have hf : (nm :: restN).filter (fun s => substrB needleL (pyLower s)) =
          restN.filter (fun s => substrB needleL (pyLower s)) := by
        simp [List.filter_cons, hm]
      rw [if_neg hm, hf]

theorem goEntries_none_results (needleL : List Char) :
    ∀ (entries : List WalkEntry) (st : SearchWorker.SState),
      (SearchWorker.goEntries none needleL entries st).results =
        st.results ++
          entries.flatMap (fun e =>
            ((e.dirnames ++ e.filenames.map Prod.fst).filter
              (fun nm => substrB needleL (pyLower nm))).map
              (fun nm => e.dirpath ++ [nm])) := by
  intro entries
  induction entries with
  | nil => intro st; simp [SearchWorker.goEntries]
  | cons e rest ih =>
    intro st
    rw [SearchWorker.goEntries]
    simp only [running, if_pos]
    rw [ih, goNames_none_results]
    rw [List.flatMap_cons, ← List.append_assoc]

/-- C6: in every uncancelled search, the collected results are exactly the
names (directories and files, in `os.walk` discovery order) for which the
lowered needle occurs as a contiguous substring of the lowered name — the
Python test `self.needle in name.lower()` with `self.needle =
needle.lower()` — joined to their directory; `substrB` is contiguous
substring containment; and the needle `"LOG"` matches the name
`"app.log"`. -/
theorem c6_match_iff_substring_in_order :
    (∀ (root : Path) (t : FSTree) (needle : String),
      SearchWorker.runResults root t needle none =
        (osWalk root t).flatMap (fun e =>
          ((e.dirnames ++ e.filenames.map Prod.fst).filter
            (fun nm => substrB (pyLower needle) (pyLower nm))).map
            (fun nm => e.dirpath ++ [nm]))) ∧
    (∀ (nd h : List Char), substrB nd h = true ↔ ∃ pre post, h = pre ++ nd ++ post) ∧
    substrB (pyLower "LOG") (pyLower "app.log") = true := by
  refine ⟨?_, substrB_iff, by decide⟩
  intro root t needle
  unfold SearchWorker.runResults SearchWorker.finalState
  rw [goEntries_none_results]
  rfl

/-- C4 (counterexample): `SearchWorker` with the empty needle returns
results on the scenario tree — in Python, `"" in s` is `True` for every
string `s`, so the empty needle matches every name. -/
theorem c4_counterexample :
    SearchWorker.runResults ["", "r"] demoTree "" none ≠ [] := by
  decide

/-- C4 (amended): inside `SearchWorker` the empty needle matches every
name — every visited directory and file is returned — but the GUI entry
point `find_next` returns immediately for an empty (or whitespace-only)
needle, so an empty search is never started. -/
theorem c4_empty_needle_matches_everything :
    (∀ (root : Path) (t : FSTree),
      SearchWorker.runResults root t "" none =
        (osWalk root t).flatMap (fun e =>
          (e.dirnames ++ e.filenames.map Prod.fst).map
            (fun nm => e.dirpath ++ [nm]))) ∧
    (∀ (ms : List Path) (matchPos : Int) (rootValid : Bool),
      MainWindow.findNextStep "" ms matchPos rootValid = NavAction.nop) := by
  constructor
  · intro root t
    unfold SearchWorker.runResults SearchWorker.finalState
    rw [goEntries_none_results]
    rw [List.nil_append]
    congr 1
    funext e
    congr 1
    apply List.filter_eq_self.mpr
    intro nm _
    exact substrB_nil (pyLower nm)
  · intro ms matchPos rootValid
    rw [MainWindow.findNextStep, if_pos (show pyStrip "" = [] from rfl)]

theorem emod_iterate (n : Nat) :
    ∀ (k : Nat) (pos : Int),
      (fun q => MainWindow.findNextPos q n)^[k + 1] pos =
        (pos + ((k : Int) + 1)) % (n : Int) := by
  have hstep : ∀ (a : Int), MainWindow.findNextPos a n = (a + 1) % (n : Int) :=
    fun _ => rfl
  intro k
  induction k with
  | zero =>
    intro pos
    simp [MainWindow.findNextPos]
  | succ k ih =>
    intro pos
    rw [show k + 1 + 1 = (k + 1) + 1 from rfl, Function.iterate_succ_apply', ih]
    show MainWindow.findNextPos ((pos + ((k : Int) + 1)) % (n : Int)) n = _
    rw [hstep, Int.emod_add_emod]
    congr 1
    push_cast
    ring

/-- C9 (amended): cursor navigation wraps modulo the match count — with
`n > 0` matches both directions always land in `[0, n)`, advancing `n`
times from any in-range position returns to the same match, and with 3
matches next,next,next from match 0 returns to match 0; `find_prev` with
zero available matches performs no navigation and is not an error; but
`find_next` with zero matches and a valid root starts a new background
search rather than doing nothing. -/
theorem c9_cursor_wraps_modulo :
    (∀ (pos : Int) (n : Nat), 0 < n →
      0 ≤ MainWindow.findNextPos pos n ∧ MainWindow.findNextPos pos n < n ∧
      0 ≤ MainWindow.findPrevPos pos n ∧ MainWindow.findPrevPos pos n < n) ∧
    (∀ (pos : Int) (n : Nat), 0 < n → 0 ≤ pos → pos < n →
      (fun q => MainWindow.findNextPos q n)^[n] pos = pos) ∧
    (MainWindow.findNextPos (MainWindow.findNextPos (MainWindow.findNextPos 0 3) 3) 3 = 0) ∧
    (∀ (needle : String) (matchPos : Int), pyStrip needle ≠ [] →
      MainWindow.findPrevStep needle [] matchPos [] = (NavAction.nop, [], 0)) ∧
    (∀ (needle : String) (matchPos : Int), pyStrip needle ≠ [] →
      MainWindow.findNextStep needle [] matchPos true = NavAction.startSearch) := by
  have hzero : ∀ (n : Nat), 0 < n → ((n : Int) ≠ 0) := by
    intro n hn
    exact_mod_cast Nat.pos_iff_ne_zero.mp hn
  refine ⟨?_, ?_, by decide, ?_, ?_⟩
  · intro pos n hn
    have hne := hzero n hn
    have hpos : (0 : Int) < (n : Int) := by exact_mod_cast hn
    exact ⟨Int.emod_nonneg _ hne, Int.emod_lt_of_pos _ hpos,
      Int.emod_nonneg _ hne, Int.emod_lt_of_pos _ hpos⟩
  · intro pos n hn h0 hlt
    obtain ⟨m, hm⟩ := Nat.exists_eq_succ_of_ne_zero (Nat.pos_iff_ne_zero.mp hn)
    subst hm
    rw [show Nat.succ m = m + 1 from rfl, emod_iterate (m + 1) m pos]
    have hcast : pos + ((m : Int) + 1) = pos + ((m + 1 : Nat) : Int) * 1 := by
      push_cast
      ring
    rw [hcast, Int.add_mul_emod_self_left]
    exact Int.emod_eq_of_lt h0 hlt
  · intro needle matchPos hne
    rw [MainWindow.findPrevStep, if_neg hne]
    rfl
  · intro needle matchPos hne
    rw [MainWindow.findNextStep, if_neg hne]
    rfl

/-- Witness for C9: the amended statement at `n = 3` matches,
position 1, and a concrete nonempty needle. -/
theorem c9_witness :
    (0 ≤ MainWindow.findNextPos 1 3 ∧ MainWindow.findNextPos 1 3 < 3 ∧
      0 ≤ MainWindow.findPrevPos 1 3 ∧ MainWindow.findPrevPos 1 3 < 3) ∧
    (fun q => MainWindow.findNextPos q 3)^[3] 1 = 1 ∧
    MainWindow.findPrevStep "x" [] 0 [] = (NavAction.nop, [], 0) ∧
    MainWindow.findNextStep "x" [] 0 true = NavAction.startSearch :=
  ⟨c9_cursor_wraps_modulo.1 1 3 (by decide),
   c9_cursor_wraps_modulo.2.1 1 3 (by decide) (by decide) (by decide),
   c9_cursor_wraps_modulo.2.2.2.1 "x" 0 (by decide),
   c9_cursor_wraps_modulo.2.2.2.2 "x" 0 (by decide)⟩

/-- C9 (counterexample): requesting find-next with zero matches is not a
no-op — it starts a new background search (src/tree.py lines 851-882). -/
theorem c9_counterexample :
    MainWindow.findNextStep "x" [] 0 true = NavAction.startSearch ∧
    NavAction.startSearch ≠ NavAction.nop := by
  constructor
  · decide
  · decide

/-- C8: while expansion is active, one drain tick re-schedules itself iff
after its batch the queue is still non-empty or the producer thread is
still running, and it finalizes iff the queue has drained and the producer
has finished — and finalizing clears the expanding flag.  It never
finalizes while the producer may still enqueue more work. -/
theorem c8_drain_reschedules_until_done :
    ∀ (valid : Nat → Path → Bool) (st : ExpSt), st.expanding = true →
      ((MainWindow.processExpandQueueStep valid st).2 = TickAction.finalize ↔
        ((MainWindow.processExpandQueueStep valid st).1.queue = [] ∧
          st.threadRunning = false)) ∧
      ((MainWindow.processExpandQueueStep valid st).2 = TickAction.reschedule ↔
        ((MainWindow.processExpandQueueStep valid st).1.queue ≠ [] ∨
          st.threadRunning = true)) ∧
      ((MainWindow.processExpandQueueStep valid st).2 = TickAction.finalize →
        (MainWindow.processExpandQueueStep valid st).1.expanding = false) := by
  intro valid st hexp
  unfold MainWindow.processExpandQueueStep
  rw [if_neg (by rw [hexp]; simp)]
  by_cases hq : (procItems valid 40 st.queue st.attempts [] st.gstep st.expanded st.popped).queue ++
      (procItems valid 40 st.queue st.attempts [] st.gstep st.expanded st.popped).requeue ≠ [] ∨
      st.threadRunning = true
  · rw [if_pos hq]
    refine ⟨?_, ?_, ?_⟩
    · constructor
      · intro h
        exact absurd h (by simp)
      · rintro ⟨h1, h2⟩
        rcases hq with h | h
        · exact absurd h1 h
        · rw [h] at h2
          exact absurd h2 (by simp)
    · constructor
      · intro _
        exact hq
      · intro _
        rfl
    · intro h
      exact absurd h (by simp)
  · rw [if_neg hq]
    push_neg at hq
    refine ⟨?_, ?_, ?_⟩
    · constructor
      · intro _
        refine ⟨hq.1, ?_⟩
        cases hb : st.threadRunning with
        | false => rfl
        | true => exact absurd hb hq.2
      · intro _
        rfl
    · constructor
      · intro h
        exact absurd h (by simp)
      · rintro (h | h)
        · exact absurd hq.1 h
        · exact absurd h hq.2
    · intro _
      rfl

/-- Witness for C8: a tick on an active state with an already-empty queue
and a finished producer finalizes. -/
theorem c8_witness :
    (MainWindow.processExpandQueueStep (fun _ _ => false)
        ⟨[], fun _ => 0, true, false, 0, [], []⟩).2 = TickAction.finalize ↔
      ((MainWindow.processExpandQueueStep (fun _ _ => false)
        ⟨[], fun _ => 0, true, false, 0, [], []⟩).1.queue = [] ∧
        (⟨[], fun _ => 0, true, false, 0, [], []⟩ : ExpSt).threadRunning = false) :=
  (c8_drain_reschedules_until_done (fun _ _ => false)
    ⟨[], fun _ => 0, true, false, 0, [], []⟩ rfl).1

theorem countP_concat (l : List Path) (x p : Path) :
    (l ++ [x]).count p = l.count p + (if x = p then 1 else 0) := by
  rw [List.count_append]
  by_cases h : x = p
  · rw [if_pos h, h]
    simp
  · rw [if_neg h]
    simp [List.count_cons, h]

theorem countP_cons (x p : Path) (l : List Path) :
    (x :: l).count p = l.count p + (if x = p then 1 else 0) := by
  by_cases h : x = p
  · rw [if_pos h, h]
    simp [List.count_cons]
  · rw [if_neg h]
    simp [List.count_cons, h]

theorem updN_self (m : Path → Nat) (k : Path) (v : Nat) : updN m k v k = v := by
  unfold updN
  rw [if_pos rfl]

theorem updN_ne (m : Path → Nat) (k : Path) (v : Nat) (p : Path) (h : p ≠ k) :
    updN m k v p = m p := by
  unfold updN
  rw [if_neg h]

theorem procItems_nv (valid : Nat → Path → Bool) (p : Path)
    (hnv : ∀ g, valid g p = false) :
    ∀ (lim : Nat) (q : List Path) (att : Path → Nat) (rq : List Path)
      (g : Nat) (ex pp : List Path),
      NVInv (q.count p + rq.count p) (att p) (pp.count p) →
      NVInv ((procItems valid lim q att rq g ex pp).queue.count p +
          (procItems valid lim q att rq g ex pp).requeue.count p)
        ((procItems valid lim q att rq g ex pp).attempts p)
        ((procItems valid lim q att rq g ex pp).popped.count p) := by
  intro lim
  induction lim with
  | zero => intro q att rq g ex pp h; exact h
  | succ lim ih =>
    intro q att rq g ex pp h
    cases q with
    | nil => exact h
    | cons folder rest =>
      rw [procItems]
      by_cases hfp : folder = p
      · rw [hfp]
        rw [hnv g]
        simp only [Bool.false_eq_true, if_false]
        rw [hfp] at h
        rw [countP_cons, if_pos rfl] at h
        rcases h with ⟨h1, h2, h3⟩ | ⟨h1, _, _⟩
        · by_cases h8 : att p + 1 ≤ 8
          · rw [if_pos h8]
            apply ih
            rw [countP_concat, countP_concat, if_pos rfl, updN_self]
            left
            refine ⟨by omega, by omega, by omega⟩
          · rw [if_neg h8]
            apply ih
            rw [countP_concat, if_pos rfl, updN_self]
            right
            refine ⟨by omega, by omega, by omega⟩
        · omega
      · have hcnt : (folder :: rest).count p = rest.count p := by
          rw [countP_cons, if_neg hfp]
          omega
        rw [hcnt] at h
        have hne : p ≠ folder := fun he => hfp he.symm
        by_cases hv : valid g folder
        · rw [if_pos hv]
          apply ih
          rw [countP_concat, if_neg hfp, updN_ne att folder 0 p hne]
          simpa using h
        · rw [if_neg hv]
          by_cases h8 : att folder + 1 ≤ 8
          · rw [if_pos h8]
            apply ih
            rw [countP_concat, countP_concat, if_neg hfp, updN_ne att folder _ p hne]
            simpa using h
          · rw [if_neg h8]
            apply ih
            rw [countP_concat, if_neg hfp, updN_ne att folder _ p hne]
            simpa using h

theorem drive_nv (valid : Nat → Path → Bool) (p : Path)
    (hnv : ∀ g, valid g p = false) :
    ∀ (fuel : Nat) (st : ExpSt) (stF : ExpSt),
      st.expanding = true →
      NVInv (st.queue.count p) (st.attempts p) (st.popped.count p) →
      MainWindow.driveExpansion valid fuel st = some stF →
      stF.queue = [] ∧
        NVInv (stF.queue.count p) (stF.attempts p) (stF.popped.count p) := by
  intro fuel
  induction fuel with
  | zero =>
    intro st stF _ _ h
    exact absurd h (by rw [MainWindow.driveExpansion]; simp)
  | succ fuel ih =>
    intro st stF hexp hinv hdrive
    rw [MainWindow.driveExpansion] at hdrive
    unfold MainWindow.processExpandQueueStep at hdrive
    rw [if_neg (by rw [hexp]; simp)] at hdrive
    have hrinv : NVInv
        ((procItems valid 40 st.queue st.attempts [] st.gstep st.expanded st.popped).queue.count p +
         (procItems valid 40 st.queue st.attempts [] st.gstep st.expanded st.popped).requeue.count p)
        ((procItems valid 40 st.queue st.attempts [] st.gstep st.expanded st.popped).attempts p)
        ((procItems valid 40 st.queue st.attempts [] st.gstep st.expanded st.popped).popped.count p) := by
      apply procItems_nv valid p hnv 40
      simpa using hinv
    by_cases hq : (procItems valid 40 st.queue st.attempts [] st.gstep st.expanded st.popped).queue ++
        (procItems valid 40 st.queue st.attempts [] st.gstep st.expanded st.popped).requeue ≠ [] ∨
        st.threadRunning = true
    · rw [if_pos hq] at hdrive
      have hdrive2 : MainWindow.driveExpansion valid fuel
          ⟨(procItems valid 40 st.queue st.attempts [] st.gstep st.expanded st.popped).queue ++
           (procItems valid 40 st.queue st.attempts [] st.gstep st.expanded st.popped).requeue,
           (procItems valid 40 st.queue st.attempts [] st.gstep st.expanded st.popped).attempts,
           st.expanding, st.threadRunning,
           (procItems valid 40 st.queue st.attempts [] st.gstep st.expanded st.popped).gstep,
           (procItems valid 40 st.queue st.attempts [] st.gstep st.expanded st.popped).expanded,
           (procItems valid 40 st.queue st.attempts [] st.gstep st.expanded st.popped).popped⟩ =
          some stF := hdrive
      refine ih _ stF ?_ ?_ hdrive2
      · exact hexp
      · dsimp only
        rw [List.count_append]
        exact hrinv
    · rw [if_neg hq] at hdrive
      push_neg at hq
      have hdrive2 : some
          (⟨(procItems valid 40 st.queue st.attempts [] st.gstep st.expanded st.popped).queue ++
           (procItems valid 40 st.queue st.attempts [] st.gstep st.expanded st.popped).requeue,
           (procItems valid 40 st.queue st.attempts [] st.gstep st.expanded st.popped).attempts,
           false, st.threadRunning,
           (procItems valid 40 st.queue st.attempts [] st.gstep st.expanded st.popped).gstep,
           (procItems valid 40 st.queue st.attempts [] st.gstep st.expanded st.popped).expanded,
           (procItems valid 40 st.queue st.attempts [] st.gstep st.expanded st.popped).popped⟩ : ExpSt) =
          some stF := hdrive
      have hstF := (Option.some.injEq _ _).mp hdrive2
      rw [← hstF]
      refine ⟨hq.1, ?_⟩
      dsimp only
      rw [List.count_append]
      exact hrinv

theorem procItems_av (valid : Nat → Path → Bool) (p : Path)
    (hav : ∀ g, valid g p = true) :
    ∀ (lim : Nat) (q : List Path) (att : Path → Nat) (rq : List Path)
      (g : Nat) (ex pp : List Path),
      AVInv (q.count p + rq.count p) (pp.count p) (att p) (p ∈ ex) →
      AVInv ((procItems valid lim q att rq g ex pp).queue.count p +
          (procItems valid lim q att rq g ex pp).requeue.count p)
        ((procItems valid lim q att rq g ex pp).popped.count p)
        ((procItems valid lim q att rq g ex pp).attempts p)
        (p ∈ (procItems valid lim q att rq g ex pp).expanded) := by
  intro lim
  induction lim with
  | zero => intro q att rq g ex pp h; exact h
  | succ lim ih =>
    intro q att rq g ex pp h
    cases q with
    | nil => exact h
    | cons folder rest =>
      rw [procItems]
      by_cases hfp : folder = p
      · rw [hfp]
        rw [hav g]
        simp only [if_true]
        rw [hfp] at h
        rw [countP_cons, if_pos rfl] at h
        rcases h with ⟨h1, h2⟩ | ⟨h1, _, _⟩
        · apply ih
          rw [countP_concat, if_pos rfl, updN_self]
          right
          refine ⟨by omega, by omega, rfl, ?_⟩
          rw [List.mem_append]
          right
          exact List.mem_singleton.mpr rfl
        · omega
      · have hcnt : (folder :: rest).count p = rest.count p := by
          rw [countP_cons, if_neg hfp]
          omega
        rw [hcnt] at h
        have hne : p ≠ folder := fun he => hfp he.symm
        have hex : ∀ P : Prop, (p ∈ ex → P) → (p ∈ ex ++ [folder] → P) → True := fun _ _ _ => trivial
        by_cases hv : valid g folder
        · rw [if_pos hv]
          apply ih
          rw [countP_concat, if_neg hfp, updN_ne att folder 0 p hne]
          rcases h with ⟨h1, h2⟩ | ⟨h1, h2, h3, h4⟩
          · left
            exact ⟨by omega, h2⟩
          · right
            refine ⟨by omega, h2, h3, ?_⟩
            rw [List.mem_append]
            exact Or.inl h4
        · rw [if_neg hv]
          by_cases h8 : att folder + 1 ≤ 8
          · rw [if_pos h8]
            apply ih
            rw [countP_concat, countP_concat, if_neg hfp,
              updN_ne att folder _ p hne]
            simpa using h
          · rw [if_neg h8]
            apply ih
            rw [countP_concat, if_neg hfp, updN_ne att folder _ p hne]
            simpa using h

theorem drive_av (valid : Nat → Path → Bool) (p : Path)
    (hav : ∀ g, valid g p = true) :
    ∀ (fuel : Nat) (st : ExpSt) (stF : ExpSt),
      st.expanding = true →
      AVInv (st.queue.count p) (st.popped.count p) (st.attempts p) (p ∈ st.expanded) →
      MainWindow.driveExpansion valid fuel st = some stF →
      stF.queue = [] ∧
        AVInv (stF.queue.count p) (stF.popped.count p) (stF.attempts p)
          (p ∈ stF.expanded) := by
  intro fuel
  induction fuel with
  | zero =>
    intro st stF _ _ h
    exact absurd h (by rw [MainWindow.driveExpansion]; simp)
  | succ fuel ih =>
    intro st stF hexp hinv hdrive
    rw [MainWindow.driveExpansion] at hdrive
    unfold MainWindow.processExpandQueueStep at hdrive
    rw [if_neg (by rw [hexp]; simp)] at hdrive
    have hrinv : AVInv
        ((procItems valid 40 st.queue st.attempts [] st.gstep st.expanded st.popped).queue.count p +
         (procItems valid 40 st.queue st.attempts [] st.gstep st.expanded st.popped).requeue.count p)
        ((procItems valid 40 st.queue st.attempts [] st.gstep st.expanded st.popped).popped.count p)
        ((procItems valid 40 st.queue st.attempts [] st.gstep st.expanded st.popped).attempts p)
        (p ∈ (procItems valid 40 st.queue st.attempts [] st.gstep st.expanded st.popped).expanded) := by
      apply procItems_av valid p hav 40
      simpa using hinv
    by_cases hq : (procItems valid 40 st.queue st.attempts [] st.gstep st.expanded st.popped).queue ++
        (procItems valid 40 st.queue st.attempts [] st.gstep st.expanded st.popped).requeue ≠ [] ∨
        st.threadRunning = true
    · rw [if_pos hq] at hdrive
      have hdrive2 : MainWindow.driveExpansion valid fuel
          ⟨(procItems valid 40 st.queue st.attempts [] st.gstep st.expanded st.popped).queue ++
           (procItems valid 40 st.queue st.attempts [] st.gstep st.expanded st.popped).requeue,
           (procItems valid 40 st.queue st.attempts [] st.gstep st.expanded st.popped).attempts,
           st.expanding, st.threadRunning,
           (procItems valid 40 st.queue st.attempts [] st.gstep st.expanded st.popped).gstep,
           (procItems valid 40 st.queue st.attempts [] st.gstep st.expanded st.popped).expanded,
           (procItems valid 40 st.queue st.attempts [] st.gstep st.expanded st.popped).popped⟩ =
          some stF := hdrive
      refine ih _ stF ?_ ?_ hdrive2
      · exact hexp
      · dsimp only
        rw [List.count_append]
        exact hrinv
    · rw [if_neg hq] at hdrive
      push_neg at hq
      have hdrive2 : some
          (⟨(procItems valid 40 st.queue st.attempts [] st.gstep st.expanded st.popped).queue ++
           (procItems valid 40 st.queue st.attempts [] st.gstep st.expanded st.popped).requeue,
           (procItems valid 40 st.queue st.attempts [] st.gstep st.expanded st.popped).attempts,
           false, st.threadRunning,
           (procItems valid 40 st.queue st.attempts [] st.gstep st.expanded st.popped).gstep,
           (procItems valid 40 st.queue st.attempts [] st.gstep st.expanded st.popped).expanded,
           (procItems valid 40 st.queue st.attempts [] st.gstep st.expanded st.popped).popped⟩ : ExpSt) =
          some stF := hdrive
      have hstF := (Option.some.injEq _ _).mp hdrive2
      rw [← hstF]
      refine ⟨hq.1, ?_⟩
      dsimp only
      rw [List.count_append]
      exact hrinv

/-- C5: in the expansion drain, a queued path whose model index is never
valid is popped (attempted) exactly 9 times — 1 initial attempt + 8
re-enqueues — and is then dropped permanently (the drain completes with an
empty queue and the path's counter at 9, no error raised); a queued path
whose index is valid when attempted is expanded and its retry counter is
cleared. -/
theorem c5_bounded_retry_then_drop :
    (∀ (valid : Nat → Path → Bool) (p : Path) (fuel : Nat) (q0 : List Path)
        (att0 : Path → Nat) (stF : ExpSt),
      (∀ g, valid g p = false) → q0.count p = 1 → att0 p = 0 →
      MainWindow.driveExpansion valid fuel ⟨q0, att0, true, false, 0, [], []⟩ = some stF →
      stF.popped.count p = 9 ∧ stF.attempts p = 9 ∧ stF.queue = []) ∧
    (∀ (valid : Nat → Path → Bool) (p : Path) (fuel : Nat) (q0 : List Path)
        (att0 : Path → Nat) (stF : ExpSt),
      (∀ g, valid g p = true) → q0.count p = 1 →
      MainWindow.driveExpansion valid fuel ⟨q0, att0, true, false, 0, [], []⟩ = some stF →
      p ∈ stF.expanded ∧ stF.attempts p = 0 ∧ stF.popped.count p = 1) := by
  constructor
  · intro valid p fuel q0 att0 stF hnv hq0 hatt0 hdrive
    have h := drive_nv valid p hnv fuel ⟨q0, att0, true, false, 0, [], []⟩ stF rfl
      (by
        show NVInv (q0.count p) (att0 p) (List.count p [])
        rw [hq0, hatt0]
        left
        exact ⟨rfl, by simp, by simp⟩)
      hdrive
    obtain ⟨hqF, hinv⟩ := h
    rcases hinv with ⟨h1, _, _⟩ | ⟨_, h2, h3⟩
    · rw [hqF] at h1
      simp at h1
    · exact ⟨h3, h2, hqF⟩
  · intro valid p fuel q0 att0 stF hav hq0 hdrive
    have h := drive_av valid p hav fuel ⟨q0, att0, true, false, 0, [], []⟩ stF rfl
      (by
        show AVInv (q0.count p) (List.count p []) (att0 p) (p ∈ ([] : List Path))
        rw [hq0]
        left
        exact ⟨rfl, by simp⟩)
      hdrive
    obtain ⟨hqF, hinv⟩ := h
    rcases hinv with ⟨h1, _⟩ | ⟨_, h2, h3, h4⟩
    · rw [hqF] at h1
      simp at h1
    · exact ⟨h4, h3, h2⟩

/-- Witness for C5: a single queued path under a never-valid oracle is
popped exactly 9 times and dropped; under an always-valid oracle it is
expanded on its first attempt with its counter cleared. -/
theorem c5_witness :
    (∃ stF, MainWindow.driveExpansion (fun _ _ => false) 12
        ⟨[["x"]], fun _ => 0, true, false, 0, [], []⟩ = some stF ∧
      stF.popped.count ["x"] = 9 ∧ stF.attempts ["x"] = 9 ∧ stF.queue = []) ∧
    (∃ stF, MainWindow.driveExpansion (fun _ _ => true) 3
        ⟨[["x"]], fun _ => 5, true, false, 0, [], []⟩ = some stF ∧
      ["x"] ∈ stF.expanded ∧ stF.attempts ["x"] = 0 ∧ stF.popped.count ["x"] = 1) := by
  constructor
  · have hs : (MainWindow.driveExpansion (fun _ _ => false) 12
        ⟨[["x"]], fun _ => 0, true, false, 0, [], []⟩).isSome = true := by decide
    obtain ⟨stF, hstF⟩ := Option.isSome_iff_exists.mp hs
    have h := c5_bounded_retry_then_drop.1 (fun _ _ => false) ["x"] 12 [["x"]]
      (fun _ => 0) stF (fun _ => rfl) (by decide) rfl hstF
    exact ⟨stF, hstF, h.1, h.2.1, h.2.2⟩
  · have hs : (MainWindow.driveExpansion (fun _ _ => true) 3
        ⟨[["x"]], fun _ => 5, true, false, 0, [], []⟩).isSome = true := by decide
    obtain ⟨stF, hstF⟩ := Option.isSome_iff_exists.mp hs
    have h := c5_bounded_retry_then_drop.2 (fun _ _ => true) ["x"] 3 [["x"]]
      (fun _ => 5) stF (fun _ => rfl) (by decide) hstF
    exact ⟨stF, hstF, h.1, h.2.1, h.2.2⟩

end FTV
